import Mathlib

/-!
A verification development for the `crap-clone` CVS-to-fast-import converter.

The definitions below are a shallow embedding of the fetch driver and the
emitter in `crap-clone.c` and of the fixup engine in `fixup.c`.  Versions,
files, changesets and tags are identified by indices into the (immutable)
database `DB`; all mutable fields of the C data structures (version marks,
`exec` bits, the global mark counter, the emitted record stream, the request
stream sent to the server, changeset marks, per-branch version arrays,
per-tag `last`/`fixup`/pending-fixup state) live in the explicit state `St`.
The remote server is an oracle mapping each request to the list of version
bodies it returns.  Fatal errors (`fatal`, failed `assert`) are modelled by
an `Option` result being `none`.
-/

set_option maxHeartbeats 1000000

namespace Crap

/-- `time_t` values. -/
abbrev Time := Int

/-- The `TIME_MIN` sentinel used by the fixup engine (64-bit signed `time_t`). -/
def timeMin : Time := -(2 ^ 63)

/-- Static data of a `file_t`. -/
structure FileT where
  path : String
deriving DecidableEq, Repr, Inhabited

/-- Static data of a `version_t`; the mutable `mark` and `exec` fields live
in the run state `St`. -/
structure VersionT where
  file : Nat
  version : String
  vtime : Time
  branch : Option Nat
  dead : Bool
  author : String
  log : String
  used : Bool
deriving DecidableEq, Repr, Inhabited

/-- Static data of a commit changeset: its versions and its time. -/
structure CommitCs where
  versions : List Nat
  ctime : Time
deriving DecidableEq, Repr, Inhabited

/-- A reference to a changeset: either a commit changeset (by index) or the
synthetic changeset embedded in a tag (by tag index). -/
inductive CsId where
  | commit : Nat → CsId
  | tagCs : Nat → CsId
deriving DecidableEq, Repr, Inhabited

/-- Static data of a `tag_t`: its name, its declared snapshot `tag_files`
(version indices), its parent changeset and the time of its synthetic
changeset. -/
structure TagT where
  tag : String
  tagFiles : List Nat
  parent : Option CsId
  csTime : Time
deriving DecidableEq, Repr, Inhabited

/-- The immutable database of files, versions, commit changesets and tags. -/
structure DB where
  files : List FileT
  versions : List VersionT
  changesets : List CommitCs
  tags : List TagT
deriving DecidableEq, Repr, Inhabited

/-- A tree-delta line of a commit record: `M <mode> :<mark> <path>` (the mark
is `none` while a version is at the `SIZE_MAX` sentinel) or `D <path>`. -/
inductive Action where
  | M : String → Option Nat → String → Action
  | D : String → Action
deriving DecidableEq, Repr

/-- One record of the output stream.  `commit` carries: is-heads flag, ref
name, mark, author, time, log text and the tree-delta lines. -/
inductive Record where
  | blob : Nat → Nat → Record
  | reset : Bool → String → Record
  | fromMark : Nat → Record
  | commit : Bool → String → Nat → String → Time → String → List Action → Record
deriving DecidableEq, Repr

/-- A request sent to the CVS server: a single-version update
(`Argument -r<version>` for one path) or a batched update with an optional
`-r` tag argument, an optional `-D` date argument and the sorted path list. -/
inductive Request where
  | single : Nat → Request
  | byOption : Option String → Option Time → List String → Request
deriving DecidableEq, Repr

/-- One file body returned by the server: the version it is for and the
executable bit of its mode line. -/
structure ReplyItem where
  v : Nat
  ex : Bool
deriving DecidableEq, Repr

/-- The server oracle: what the server returns for each request. -/
abbrev Server := Request → List ReplyItem

/-- A `fixup_ver_t`: file index, desired live version (or `none` for a
deletion) and the time hint. -/
structure FixupVer where
  file : Nat
  version : Option Nat
  ftime : Time
deriving DecidableEq, Repr, Inhabited

/-- The mutable state of a run: version marks (`none` is the `SIZE_MAX`
sentinel), version `exec` bits, the global `mark_counter`, the emitted
output records, the requests sent to the server, commit-changeset marks and
tag-changeset marks (`0` is unset), per-tag branch-version arrays (`none`
for non-branch tags), per-tag `last` pointers, per-tag `fixup` flags and
per-tag remaining (not yet flushed) fixups. -/
structure St where
  marks : List (Option Nat)
  execs : List Bool
  counter : Nat
  out : List Record
  reqs : List Request
  csMark : List Nat
  tagCsMark : List Nat
  branchVersions : List (Option (List (Option Nat)))
  lastCs : List (Option CsId)
  fixupFlag : List Bool
  fixupsRem : List (List FixupVer)
deriving DecidableEq, Repr

/-- Version lookup (a dangling index yields the default record). -/
def getV (db : DB) (v : Nat) : VersionT := db.versions.getD v default

/-- File lookup. -/
def getF (db : DB) (f : Nat) : FileT := db.files.getD f default

/-- Commit-changeset lookup. -/
def getCs (db : DB) (c : Nat) : CommitCs := db.changesets.getD c default

/-- Tag lookup. -/
def getTag (db : DB) (t : Nat) : TagT := db.tags.getD t default

/-- The mark of a version in the run state (`none` = `SIZE_MAX` sentinel). -/
def markOf (st : St) (v : Nat) : Option Nat := st.marks.getD v none

/-- Modelled from the spec: `version_live` (declared in a header that is not
part of the sources) returns its argument if it is non-null and not dead,
and null otherwise: `live(v) = v if v and not dead else null`. -/
def version_live (db : DB) : Option Nat → Option Nat
  | none => none
  | some v => if (getV db v).dead then none else some v

/-- Modelled from the spec: `version_normalise` (declared in a header that is
not part of the sources) is the canonical non-alias form, the identity here. -/
def version_normalise (v : Option Nat) : Option Nat := v

/-- The effective ref name: `cvs_master` when the source branch name is
empty. -/
def effName (s : String) : String := if s = "" then "cvs_master" else s

/-- The file mode printed for a version: `755` if executable else `644`. -/
def modeStr (ex : Bool) : String := if ex then "755" else "644"

/-- The mark of a changeset reference in the current state. -/
def csMarkOf (st : St) : CsId → Nat
  | .commit i => st.csMark.getD i 0
  | .tagCs j => st.tagCsMark.getD j 0

/-- The time of a changeset reference. -/
def csTimeOf (db : DB) : CsId → Time
  | .commit i => (getCs db i).ctime
  | .tagCs j => (getTag db j).csTime

/-- `read_version`: process one file body returned by the server.  Records
the executable bit; if the version is still at the sentinel it is assigned
the next mark and a blob record is emitted, otherwise the body is dropped
with a duplicate warning.  An unknown version index is fatal. -/
def read_version (db : DB) (st : St) (it : ReplyItem) : Option St :=
  if it.v < db.versions.length then
    match st.marks.getD it.v none with
    | none =>
      some { st with
               execs := st.execs.set it.v it.ex,
               counter := st.counter + 1,
               marks := st.marks.set it.v (some (st.counter + 1)),
               out := st.out ++ [Record.blob (st.counter + 1) it.v] }
    | some _ => some { st with execs := st.execs.set it.v it.ex }
  else none

/-- `read_versions`: process the whole reply stream of one request, up to the
terminating `ok`. -/
def read_versions (db : DB) (st : St) : List ReplyItem → Option St
  | [] => some st
  | it :: rest =>
    match read_version db st it with
    | some st1 => read_versions db st1 rest
    | none => none

/-- `grab_version`: fetch a single version by version id.  Marked versions
are skipped without a request; after the reply it is fatal for the version
to still be at the sentinel. -/
def grab_version (db : DB) (server : Server) (st : St) (v : Nat) : Option St :=
  if v < db.versions.length then
    match st.marks.getD v none with
    | some _ => some st
    | none =>
      match read_versions db { st with reqs := st.reqs ++ [Request.single v] }
          (server (Request.single v)) with
      | some st1 => if (st1.marks.getD v none).isNone then none else some st1
      | none => none
  else none

/-- Byte-wise comparison of character lists, modelling `strcmp` ordering. -/
def charsLe : List Char → List Char → Bool
  | [], _ => true
  | _ :: _, [] => false
  | a :: as, b :: bs =>
    if a.toNat < b.toNat then true
    else if b.toNat < a.toNat then false
    else charsLe as bs

/-- String order used to model `ARRAY_SORT (paths, strcmp)`. -/
def strLe (a b : String) : Prop := charsLe a.data b.data = true

instance : DecidableRel strLe := fun a b =>
  inferInstanceAs (Decidable (charsLe a.data b.data = true))

/-- The sorted path list sent for a batched fetch
(`ARRAY_SORT (paths, strcmp)`). -/
def sortedPaths (db : DB) (fetch : List Nat) : List String :=
  List.insertionSort strLe (fetch.map (fun v => (getF db (getV db v).file).path))

/-- `grab_by_option`: batched fetch of several versions under one request.
Asserts that every requested version is live, used and unmarked, and that
the path list is non-empty; sends the sorted path list with the given `-r`
and `-D` arguments and processes the reply. -/
def grab_by_option (db : DB) (server : Server) (st : St)
    (rArg : Option String) (dArg : Option Time) (fetch : List Nat) : Option St :=
  if fetch.all (fun v =>
      decide (v < db.versions.length) && !(getV db v).dead &&
      (getV db v).used && (st.marks.getD v none).isNone) then
    if fetch.isEmpty then none
    else
      read_versions db
        { st with reqs := st.reqs ++ [Request.byOption rArg dArg (sortedPaths db fetch)] }
        (server (Request.byOption rArg dArg (sortedPaths db fetch)))
  else none

/-- The min/max loop of `grab_versions`, with its `if`/`else if` structure. -/
def minmaxLoop : List Time → Time × Time → Time × Time
  | [], p => p
  | t :: rest, (dmin, dmax) =>
    if t < dmin then minmaxLoop rest (t, dmax)
    else if t > dmax then minmaxLoop rest (dmin, t)
    else minmaxLoop rest (dmin, dmax)

/-- The retry loop at the end of `grab_versions`: every version still at the
sentinel is fetched individually. -/
def grabRetry (db : DB) (server : Server) : St → List Nat → Option St
  | st, [] => some st
  | st, v :: rest =>
    if (st.marks.getD v none).isNone then
      match grab_version db server st v with
      | some st1 => grabRetry db server st1 rest
      | none => none
    else grabRetry db server st rest

/-- The `-r` argument of a date-batched fetch: the branch tag of the first
version, or nothing when that tag is the empty (trunk) name. -/
def branchArg (db : DB) (v0 : Nat) : Option String :=
  if (getTag db ((getV db v0).branch.getD 0)).tag = "" then none
  else some (getTag db ((getV db v0).branch.getD 0)).tag

/-- The date-batch phase of `grab_versions`: when the min/max loop finds a
time range under 300 seconds and the first version has a branch, issue one
batched fetch keyed by the branch tag and the upper-bound date; otherwise do
nothing. -/
def grabDatePhase (db : DB) (server : Server) (st : St)
    (v0 : Nat) (vrest : List Nat) : Option St :=
  if (minmaxLoop (vrest.map (fun v => (getV db v).vtime))
        ((getV db v0).vtime, (getV db v0).vtime)).2 -
     (minmaxLoop (vrest.map (fun v => (getV db v).vtime))
        ((getV db v0).vtime, (getV db v0).vtime)).1 < 300 ∧
     (getV db v0).branch.isSome then
    grab_by_option db server st (branchArg db v0)
      (some (minmaxLoop (vrest.map (fun v => (getV db v).vtime))
        ((getV db v0).vtime, (getV db v0).vtime)).2)
      (v0 :: vrest)
  else some st

/-- `grab_versions`: fetch a set of versions, choosing between a singleton
fetch, a batch keyed by a shared version-id string, a batch keyed by the
first version's branch tag and an upper-bound date (followed by individual
retries), or individual fetches. -/
def grab_versions (db : DB) (server : Server) (st : St) (fetch : List Nat) : Option St :=
  match fetch with
  | [] => some st
  | [v] => grab_version db server st v
  | v0 :: v1 :: rest =>
    if (v0 :: v1 :: rest).all (fun v => (getV db v).version = (getV db v0).version) then
      grab_by_option db server st (some (getV db v0).version) none (v0 :: v1 :: rest)
    else
      match grabDatePhase db server st v0 (v1 :: rest) with
      | some st1 => grabRetry db server st1 (v0 :: v1 :: rest)
      | none => none

/-- The walk shared by `create_fixups` and `fixup_commit_comment`: iterate
over the file indices in order keeping a moving pointer into a second list;
the pointer element is consumed exactly when its key equals the current file
index. -/
def fileWalk {γ α : Type} (key : γ → Nat) (step : Nat → Option γ → α) :
    List Nat → List γ → List α
  | [], _ => []
  | i :: is, [] => step i none :: fileWalk key step is []
  | i :: is, g :: gs =>
    if key g = i then step i (some g) :: fileWalk key step is gs
    else step i none :: fileWalk key step is (g :: gs)

/-- The base version seen for file `i`: `branch_versions[i]` or null when the
array is null. -/
def baseAt (bvs : Option (List (Option Nat))) (i : Nat) : Option Nat :=
  match bvs with
  | none => none
  | some l => l.getD i none

/-- The per-file step of `create_fixups`: compare the live base version with
the live tag version and record a fixup entry when they differ; the time
hint is the tag version's time, or `TIME_MIN` when the tag has no version
for the file. -/
def cfStep (db : DB) (bvs : Option (List (Option Nat))) (i : Nat)
    (tf : Option Nat) : Option FixupVer :=
  let bv := version_normalise (baseAt bvs i)
  let tv := version_normalise tf
  let bvl := version_live db bv
  let tvl := version_live db tv
  if bvl = tvl then none
  else some { file := i, version := tvl,
              ftime := match tv with
                       | some t => (getV db t).vtime
                       | none => timeMin }

/-- Ordering of fixup entries by time (`compare_fixup_by_time`). -/
def fvLe (a b : FixupVer) : Prop := a.ftime ≤ b.ftime

instance : DecidableRel fvLe := fun a b => inferInstanceAs (Decidable (a.ftime ≤ b.ftime))

/-- `create_fixups`: walk all files against the tag's `tag_files`, collect a
fixup entry for every file whose live base version differs from the live
tag version, and sort the result by time. -/
def create_fixups (db : DB) (bvs : Option (List (Option Nat)))
    (tagFiles : List Nat) : List FixupVer :=
  List.insertionSort fvLe
    ((fileWalk (fun t => (getV db t).file) (cfStep db bvs)
        (List.range db.files.length) tagFiles).reduceOption)

/-- The tag's declared snapshot version for file `i`: the first tag-file
entry whose file is `i`. -/
def targetAt (db : DB) (tagFiles : List Nat) (i : Nat) : Option Nat :=
  tagFiles.find? (fun t => (getV db t).file == i)

/-- The fixup entry claim C3 (amended) prescribes for file `i`: an entry
exactly when the live base version differs from the live target version,
carrying the live target version and the target version's time — `TIME_MIN`
only when the tag has no version at all for the file (a dead target
contributes its own time). -/
def fixupFor (db : DB) (bvs : Option (List (Option Nat))) (tagFiles : List Nat)
    (i : Nat) : Option FixupVer :=
  if version_live db (baseAt bvs i) = version_live db (targetAt db tagFiles i) then none
  else some { file := i,
              version := version_live db (targetAt db tagFiles i),
              ftime := match targetAt db tagFiles i with
                       | some t => (getV db t).vtime
                       | none => timeMin }

/-- Alignment of a tag's `tag_files` with the database: the file indices are
strictly increasing and within range, matching the walk order of
`create_fixups`. -/
def TagFilesAligned (db : DB) (tagFiles : List Nat) : Prop :=
  List.Pairwise (fun a b => (getV db a).file < (getV db b).file) tagFiles ∧
  ∀ t ∈ tagFiles, (getV db t).file < db.files.length

/-- The per-file category used by the stats pass of `fixup_commit_comment`. -/
inductive FCat where
  | keepC | noneC | delC | addC | modC
deriving DecidableEq, BEq, Repr

/-- The target version the comment walk sees for one file: the consumed
fixup entry's version, or the live base version when no entry was consumed. -/
def fccTargetAtE (e : Option FixupVer) (bv : Option Nat) : Option Nat :=
  match e with
  | some fv => fv.version
  | none => bv

/-- The stats pass of `fixup_commit_comment` for one file: `tv` is the fixup
entry's version when the walk consumes an entry for this file, else the live
base version. -/
def fccCat (db : DB) (base : Option (List (Option Nat))) (i : Nat)
    (e : Option FixupVer) : FCat :=
  if version_live db (baseAt base i) = fccTargetAtE e (version_live db (baseAt base i)) then
    (if (version_live db (baseAt base i)).isSome then .keepC else .noneC)
  else if fccTargetAtE e (version_live db (baseAt base i)) = none then .delC
  else if version_live db (baseAt base i) = none then .addC
  else .modC

/-- The first line of a fix-up commit log. -/
def headerLine (modified added deleted keep : Nat) : String :=
  "Fix-up commit generated by crap-clone.  (~" ++ toString modified ++
    " +" ++ toString added ++ " -" ++ toString deleted ++ " =" ++
    toString keep ++ ")"

/-- The body pass of `fixup_commit_comment` for one file: a `KEEP` line for
an unchanged live file when `keep <= deleted`, and a change line for a
changed file unless it is a deletion and `deleted > keep`. -/
def fccLine (db : DB) (base : Option (List (Option Nat))) (keep deleted : Nat)
    (i : Nat) (e : Option FixupVer) : Option String :=
  if version_live db (baseAt base i) = fccTargetAtE e (version_live db (baseAt base i)) then
    match version_live db (baseAt base i) with
    | some b =>
      if keep ≤ deleted then
        some ((getF db (getV db b).file).path ++ " KEEP " ++ (getV db b).version)
      else none
    | none => none
  else
    if (fccTargetAtE e (version_live db (baseAt base i))).isSome ∨ deleted ≤ keep then
      some ((getF db i).path ++ " " ++
        (match version_live db (baseAt base i) with
         | some b => (getV db b).version
         | none => "ADD") ++
        "->" ++
        (match fccTargetAtE e (version_live db (baseAt base i)) with
         | some t => (getV db t).version
         | none => "DELETE"))
    else none

/-- The number of files the stats pass of `fixup_commit_comment` puts in a
given category. -/
def fccCount (db : DB) (base : Option (List (Option Nat)))
    (fixups : List FixupVer) (c : FCat) : Nat :=
  (fileWalk (fun fv => fv.file) (fccCat db base)
      (List.range db.files.length) fixups).countP (fun x => decide (x = c))

/-- `fixup_commit_comment`: compute the modified/added/deleted/kept counts,
assert that every fixup entry was counted as a change, and produce the log
lines: the header line followed by the per-file lines. -/
def fixup_commit_comment (db : DB) (base : Option (List (Option Nat)))
    (fixups : List FixupVer) : Option (List String) :=
  if fccCount db base fixups FCat.addC + fccCount db base fixups FCat.delC +
      fccCount db base fixups FCat.modC = fixups.length then
    some (headerLine (fccCount db base fixups FCat.modC)
        (fccCount db base fixups FCat.addC) (fccCount db base fixups FCat.delC)
        (fccCount db base fixups FCat.keepC) ::
      (fileWalk (fun fv => fv.file)
          (fccLine db base (fccCount db base fixups FCat.keepC)
            (fccCount db base fixups FCat.delC))
          (List.range db.files.length) fixups).reduceOption)
  else none

/-- The per-file target version claim C4 reads off a fixup list: the fixup
entry's version when the file has an entry, else the unchanged live base
version. -/
def fccTargetAt (db : DB) (base : Option (List (Option Nat)))
    (fixups : List FixupVer) (i : Nat) : Option Nat :=
  fccTargetAtE (fixups.find? (fun fv => fv.file == i)) (version_live db (baseAt base i))

/-- Number of kept files per claim C4: target equal to the live base version
and live. -/
def countKept (db : DB) (base : Option (List (Option Nat)))
    (fixups : List FixupVer) (n : Nat) : Nat :=
  (List.range n).countP (fun i =>
    decide (fccTargetAt db base fixups i = version_live db (baseAt base i) ∧
      (version_live db (baseAt base i)).isSome = true))

/-- Number of deleted files per claim C4: changed, with a null target. -/
def countDeleted (db : DB) (base : Option (List (Option Nat)))
    (fixups : List FixupVer) (n : Nat) : Nat :=
  (List.range n).countP (fun i =>
    decide (¬ version_live db (baseAt base i) = fccTargetAt db base fixups i ∧
      fccTargetAt db base fixups i = none))

/-- Number of added files per claim C4: changed, live target, null base. -/
def countAdded (db : DB) (base : Option (List (Option Nat)))
    (fixups : List FixupVer) (n : Nat) : Nat :=
  (List.range n).countP (fun i =>
    decide (¬ version_live db (baseAt base i) = fccTargetAt db base fixups i ∧
      ¬ fccTargetAt db base fixups i = none ∧ version_live db (baseAt base i) = none))

/-- Number of modified files per claim C4: changed, live target, live base. -/
def countModified (db : DB) (base : Option (List (Option Nat)))
    (fixups : List FixupVer) (n : Nat) : Nat :=
  (List.range n).countP (fun i =>
    decide (¬ version_live db (baseAt base i) = fccTargetAt db base fixups i ∧
      ¬ fccTargetAt db base fixups i = none ∧
      ¬ version_live db (baseAt base i) = none))

/-- The log line claim C4 (amended) prescribes for file `i`: a `KEEP` line
for an unchanged live file when kept is at most deleted, and a
`<path> <old-or-ADD>-><new-or-DELETE>` line for a changed file unless the
change is a deletion and deletions outnumber kept files. -/
def claimFixupLine (db : DB) (base : Option (List (Option Nat)))
    (fixups : List FixupVer) (keep deleted : Nat) (i : Nat) : Option String :=
  fccLine db base keep deleted i (fixups.find? (fun fv => fv.file == i))

/-- Alignment of a fixup list with the database: file indices strictly
increasing and within range, matching the walk order of
`fixup_commit_comment`. -/
def FixupsAligned (db : DB) (fixups : List FixupVer) : Prop :=
  List.Pairwise (fun a b => a.file < b.file) fixups ∧
  ∀ fv ∈ fixups, fv.file < db.files.length

/-- A list of log lines joined into the log text, every line terminated by a
newline. -/
def joinLines (ls : List String) : String :=
  ls.foldr (fun l acc => l ++ "\n" ++ acc) ""

/-- Modelled from the spec: `fixup_list` (its definition is not among the
sources; only its caller `print_fixups` is).  It hands out the pending
fixups whose time hint precedes the cutoff changeset's time — all of them
when there is no cutoff — and leaves the rest pending. -/
def fixup_list (rem : List FixupVer) (cutoff : Option Time) :
    List FixupVer × List FixupVer :=
  match cutoff with
  | none => (rem, [])
  | some t => (rem.takeWhile (fun fv => decide (fv.ftime < t)),
               rem.dropWhile (fun fv => decide (fv.ftime < t)))

/-- The emission loop of `print_fixups`: for every flushed entry assert that
the target differs from the live base version and produce the `D`/`M` line. -/
def fixupActions (db : DB) (st : St) (base : Option (List (Option Nat))) :
    List FixupVer → Option (List Action)
  | [] => some []
  | fv :: rest =>
    let bv := version_live db (baseAt base fv.file)
    let tv := fv.version
    if tv = bv then none
    else
      let a : Action :=
        match tv with
        | none =>
          Action.D (match bv with
                    | some b => (getF db (getV db b).file).path
                    | none => "")
        | some v =>
          Action.M (modeStr (st.execs.getD v false)) (st.marks.getD v none)
            (getF db (getV db v).file).path
      match fixupActions db st base rest with
      | some as => some (a :: as)
      | none => none

/-- Apply the flushed fixups to a branch-version array
(`tag->branch_versions[i] = tv`). -/
def applyFixupsBV (bvs : List (Option Nat)) : List FixupVer → List (Option Nat)
  | [] => bvs
  | fv :: rest => applyFixupsBV (bvs.set fv.file fv.version) rest

/-- The committer time of a fix-up commit
(`tag->branch_versions && tag->last ? tag->last->time : tag->changeset.time`). -/
def fixupTime (db : DB) (st : St) (t : Nat) : Time :=
  match (if (st.branchVersions.getD t none).isSome then st.lastCs.getD t none else none) with
  | some l => csTimeOf db l
  | none => (getTag db t).csTime

/-- The fix-up commit timestamp claim C9 prescribes: the time of the most
recently emitted changeset when the tag is a branch that already has
commits, and the tag's own changeset time otherwise. -/
def claimFixupTime (db : DB) (st : St) (t : Nat) : Time :=
  if (st.branchVersions.getD t none).isSome then
    match st.lastCs.getD t none with
    | some (CsId.commit i) => (getCs db i).ctime
    | _ => (getTag db t).csTime
  else (getTag db t).csTime

/-- `print_fixups`: flush the pending fixups of `tag` due before the cutoff.
If none are due nothing happens; otherwise the missing target versions are
fetched, the tag's `fixup` flag is set, its changeset receives a fresh mark
and one fix-up commit record is emitted, whose committer is the fixed
synthetic identity `crap` and whose time is `last.time` for a branch with a
`last` changeset and the tag's own changeset time otherwise; finally a
branch's version array is updated to the flushed targets. -/
def print_fixups (db : DB) (server : Server) (st : St)
    (base : Option (List (Option Nat))) (t : Nat) (cutoff : Option Time) :
    Option St :=
  let sel := fixup_list (st.fixupsRem.getD t []) cutoff
  match sel.1 with
  | [] => some st
  | _ :: _ =>
    let due := sel.1
    let st0 : St := { st with fixupsRem := st.fixupsRem.set t sel.2 }
    let fetch := due.filterMap (fun fv =>
      match fv.version with
      | some v =>
        if !(getV db v).dead && (st0.marks.getD v none).isNone then some v else none
      | none => none)
    match grab_versions db server st0 fetch with
    | none => none
    | some st1 =>
      let st2 : St := { st1 with
                          fixupFlag := st1.fixupFlag.set t true,
                          counter := st1.counter + 1,
                          tagCsMark := st1.tagCsMark.set t (st1.counter + 1) }
      match fixup_commit_comment db base due with
      | none => none
      | some lines =>
        match fixupActions db st2 base due with
        | none => none
        | some acts =>
          let rec0 := Record.commit ((st2.branchVersions.getD t none).isSome)
            (effName (getTag db t).tag) (st2.tagCsMark.getD t 0) "crap"
            (fixupTime db st2 t) (joinLines lines) acts
          let st3 : St := { st2 with out := st2.out ++ [rec0] }
          some { st3 with
                   branchVersions :=
                     match st3.branchVersions.getD t none with
                     | some bvs => st3.branchVersions.set t (some (applyFixupsBV bvs due))
                     | none => st3.branchVersions }

/-- The fetch-strategy dispatcher of the amended claim C2, written from the
spec's words: a singleton set is fetched by version id; else if all versions
share one version-id string, one batch keyed by that revision; else if the
first version of the set has a branch and the time range (max minus min,
computed by folds) is under the 300-second coalescing window, one batch
keyed by that branch's tag (omitted when the tag name is empty) and the
upper-bound date, followed by individual retries of versions still at the
sentinel; else individual fetches of the versions still at the sentinel. -/
def grabVersionsSpec (db : DB) (server : Server) (st : St) (fetch : List Nat) : Option St :=
  match fetch with
  | [] => some st
  | [v] => grab_version db server st v
  | v0 :: v1 :: rest =>
    if (v0 :: v1 :: rest).all (fun v => (getV db v).version = (getV db v0).version) then
      grab_by_option db server st (some (getV db v0).version) none (v0 :: v1 :: rest)
    else
      if ((v0 :: v1 :: rest).map (fun v => (getV db v).vtime)).foldl max (getV db v0).vtime -
         ((v0 :: v1 :: rest).map (fun v => (getV db v).vtime)).foldl min (getV db v0).vtime < 300 ∧
         (getV db v0).branch.isSome then
        match grab_by_option db server st (branchArg db v0)
            (some (((v0 :: v1 :: rest).map (fun v => (getV db v).vtime)).foldl max
              (getV db v0).vtime)) (v0 :: v1 :: rest) with
        | some st1 => grabRetry db server st1 (v0 :: v1 :: rest)
        | none => none
      else grabRetry db server st (v0 :: v1 :: rest)

/-- The fetch-strategy dispatcher exactly as claim C2 states it: the date
batch requires that all versions of the set share one branch (not merely
that the first version has one). -/
def grabVersionsClaim (db : DB) (server : Server) (st : St) (fetch : List Nat) : Option St :=
  match fetch with
  | [] => some st
  | [v] => grab_version db server st v
  | v0 :: v1 :: rest =>
    if (v0 :: v1 :: rest).all (fun v => (getV db v).version = (getV db v0).version) then
      grab_by_option db server st (some (getV db v0).version) none (v0 :: v1 :: rest)
    else
      if ((v0 :: v1 :: rest).map (fun v => (getV db v).vtime)).foldl max (getV db v0).vtime -
         ((v0 :: v1 :: rest).map (fun v => (getV db v).vtime)).foldl min (getV db v0).vtime < 300 ∧
         (getV db v0).branch.isSome ∧
         (v0 :: v1 :: rest).all (fun v => (getV db v).branch = (getV db v0).branch) then
        match grab_by_option db server st (branchArg db v0)
            (some (((v0 :: v1 :: rest).map (fun v => (getV db v).vtime)).foldl max
              (getV db v0).vtime)) (v0 :: v1 :: rest) with
        | some st1 => grabRetry db server st1 (v0 :: v1 :: rest)
        | none => none
      else grabRetry db server st (v0 :: v1 :: rest)

/-- `print_commit`: flush the branch's fixups due before this changeset,
compute whether the changeset changes anything against the branch tip, and
either inherit the parent mark (no-op) or fetch the missing versions, take a
fresh mark and emit the commit record with one `M`/`D` line per used
version. -/
def print_commit (db : DB) (server : Server) (st : St) (c : Nat) : Option St :=
  match (getCs db c).versions with
  | [] => none
  | v0 :: _ =>
    match (getV db v0).branch with
    | none => none
    | some b =>
      match st.branchVersions.getD b none with
      | none => none
      | some bvs0 =>
        match print_fixups db server st (some bvs0) b (some (getCs db c).ctime) with
        | none => none
        | some st1 =>
          match st1.branchVersions.getD b none with
          | none => none
          | some bvs =>
            let vsUsed := (getCs db c).versions.filter (fun v => (getV db v).used)
            let isNil := vsUsed.all (fun v =>
              version_live db (some v) =
                version_live db (bvs.getD (getV db v).file none))
            if isNil then
              match st1.lastCs.getD b none with
              | none => none
              | some l =>
                some { st1 with
                         csMark := st1.csMark.set c (csMarkOf st1 l),
                         lastCs := st1.lastCs.set b (some (CsId.commit c)) }
            else
              let fetch := vsUsed.filterMap (fun v =>
                let cv := version_live db (some v)
                if cv = version_live db (bvs.getD (getV db v).file none) then none
                else
                  match cv with
                  | some w =>
                    if (st1.marks.getD w none).isNone then some w else none
                  | none => none)
              match grab_versions db server st1 fetch with
              | none => none
              | some st2 =>
                let st3 : St := { st2 with
                                    lastCs := st2.lastCs.set b (some (CsId.commit c)),
                                    counter := st2.counter + 1,
                                    csMark := st2.csMark.set c (st2.counter + 1) }
                let acts := vsUsed.map (fun v =>
                  if (getV db v).dead then Action.D (getF db (getV db v).file).path
                  else Action.M (modeStr (st3.execs.getD v false))
                    (st3.marks.getD v none) (getF db (getV db v).file).path)
                some { st3 with
                         out := st3.out ++
                           [Record.commit true (effName (getTag db b).tag)
                             (st3.csMark.getD c 0) (getV db v0).author
                             (getCs db c).ctime (getV db v0).log acts] }

/-- The branch the tag's parent changeset lies on: the head version's branch
for a commit parent, the tag itself for a tag parent. -/
def tagParentBranch (db : DB) (t : Nat) : Option Nat :=
  match (getTag db t).parent with
  | none => none
  | some (CsId.commit i) => (getV db ((getCs db i).versions.headD 0)).branch
  | some (CsId.tagCs j) => some j

/-- The mark `print_tag` gives the tag's changeset: the parent changeset's
mark, or 0 when the tag has no parent. -/
def tagParentMark (db : DB) (st : St) (t : Nat) : Nat :=
  match (getTag db t).parent with
  | some p => csMarkOf st p
  | none => 0

/-- The records the reset phase of `print_tag` emits: the reset line
(`refs/heads` for a branch, `refs/tags` otherwise, with the default name for
the empty trunk name), followed by a `from :M` line exactly when the parent
mark is nonzero. -/
def resetRecords (db : DB) (st : St) (t : Nat) : List Record :=
  [Record.reset ((st.branchVersions.getD t none).isSome) (effName (getTag db t).tag)] ++
  (if tagParentMark db st t ≠ 0 then [Record.fromMark (tagParentMark db st t)] else [])

/-- The parent branch's version array seen by `print_tag`. -/
def tagParentBvs (db : DB) (st : St) (t : Nat) : Option (List (Option Nat)) :=
  (tagParentBranch db t).bind (fun b => st.branchVersions.getD b none)

/-- `print_tag`: emit the reset record for a tag or branch, set the tag's
changeset mark to the parent changeset's mark (0 for a root) and emit the
from-line exactly when that mark is nonzero; then point `last` at the tag's
own changeset, compute its fixups against the parent branch's versions,
rewind a branch's version array to the parent's (or to all-null for a root)
and, for a non-branch tag, immediately flush all fixups. -/
def print_tag (db : DB) (server : Server) (st : St) (t : Nat) : Option St :=
  if (match (getTag db t).parent with
      | none => true
      | some p =>
        match tagParentBranch db t with
        | some b => decide (st.lastCs.getD b none = some p)
        | none => false) then
    match st.branchVersions.getD t none with
    | some _ =>
      some { st with
        out := st.out ++ resetRecords db st t,
        tagCsMark := st.tagCsMark.set t (tagParentMark db st t),
        lastCs := st.lastCs.set t (some (CsId.tagCs t)),
        fixupsRem := st.fixupsRem.set t
          (create_fixups db (tagParentBvs db st t) (getTag db t).tagFiles),
        branchVersions := st.branchVersions.set t
          (some (match tagParentBvs db st t with
                 | some pbvs => pbvs
                 | none => List.replicate db.files.length none)) }
    | none =>
      print_fixups db server
        { st with
          out := st.out ++ resetRecords db st t,
          tagCsMark := st.tagCsMark.set t (tagParentMark db st t),
          lastCs := st.lastCs.set t (some (CsId.tagCs t)),
          fixupsRem := st.fixupsRem.set t
            (create_fixups db (tagParentBvs db st t) (getTag db t).tagFiles) }
        (tagParentBvs db st t) t none
  else none

/-- The tree-delta line claim C5 (amended) prescribes for a used version of
a commit changeset: `D <path>` for a dead version and `M <mode> :<mark>
<path>` — mode `755` if executable else `644` — for a live one. -/
def usedActionSpec (db : DB) (st : St) (v : Nat) : Action :=
  if (getV db v).dead then Action.D (getF db (getV db v).file).path
  else Action.M (modeStr (st.execs.getD v false)) (st.marks.getD v none)
    (getF db (getV db v).file).path

/-! ### Observations on the output stream and state. -/

/-- Whether a record is a blob for version `v`. -/
def isBlobFor (v : Nat) : Record → Bool
  | Record.blob _ w => w == v
  | _ => false

/-- The number of blob records for version `v` in the output. -/
def blobCount (v : Nat) (out : List Record) : Nat := out.countP (isBlobFor v)

/-- Whether a record is a blob. -/
def isBlob : Record → Bool
  | Record.blob _ _ => true
  | _ => false

/-- The mark a record defines: blobs and commits define their mark, other
records define none. -/
def recDefMark : Record → Option Nat
  | Record.blob m _ => some m
  | Record.commit _ _ m _ _ _ _ => some m
  | _ => none

/-- The sequence of marks defined by the output stream, in order. -/
def defMarks (out : List Record) : List Nat := out.filterMap recDefMark

/-- The mark invariant: the marks defined in the output are strictly
increasing, positive and bounded by the counter. -/
def MarksInv (st : St) : Prop :=
  List.Chain' (· < ·) (defMarks st.out) ∧
  ∀ m ∈ defMarks st.out, 0 < m ∧ m ≤ st.counter

/-- Well-formedness of the run state: the mark array covers the versions. -/
def WfSt (db : DB) (st : St) : Prop := db.versions.length ≤ st.marks.length

/-- Well-formedness of the database: version branches name existing tags and
changesets hold existing versions. -/
def WfDB (db : DB) : Prop :=
  (∀ v ∈ db.versions, v.branch.all (fun b => decide (b < db.tags.length)) = true) ∧
  (∀ cs ∈ db.changesets, ∀ v ∈ cs.versions, v < db.versions.length)

/-- Full well-formedness of the run state: the mark, tag-mark and
changeset-mark arrays cover the database. -/
def WfAll (db : DB) (st : St) : Prop :=
  db.versions.length ≤ st.marks.length ∧
  db.tags.length ≤ st.tagCsMark.length ∧
  db.changesets.length ≤ st.csMark.length

/-- The transition properties shared by all the fetch-driver functions:
assigned marks are preserved, the output grows by blob records only, exactly
one blob is emitted per newly marked version and none otherwise, the counter
is monotone, the mark invariant is preserved, and the emitter-side state is
untouched. -/
structure GV (st st' : St) : Prop where
  mono : ∀ v m, markOf st v = some m → markOf st' v = some m
  app : ∃ d, st'.out = st.out ++ d ∧ ∀ r ∈ d, isBlob r = true
  cnt : ∀ v, blobCount v st'.out =
    blobCount v st.out + (if markOf st v = none ∧ markOf st' v ≠ none then 1 else 0)
  ctr : st.counter ≤ st'.counter
  inv : MarksInv st → MarksInv st'
  csm : st'.csMark = st.csMark
  tcm : st'.tagCsMark = st.tagCsMark
  bvs : st'.branchVersions = st.branchVersions
  lst : st'.lastCs = st.lastCs
  ffl : st'.fixupFlag = st.fixupFlag
  frm : st'.fixupsRem = st.fixupsRem
  mln : st'.marks.length = st.marks.length

/-- The transition properties shared by the three emitter operations
(`print_commit`, `print_tag`, `print_fixups`): the counter only grows, a
version mark once assigned is preserved, the output stream only grows, the
mark invariant is preserved, and the mark arrays keep their lengths. -/
structure SOK (st st' : St) : Prop where
  ctr : st.counter ≤ st'.counter
  mono : ∀ v m, markOf st v = some m → markOf st' v = some m
  app : ∃ d, st'.out = st.out ++ d
  inv : MarksInv st → MarksInv st'
  mln : st'.marks.length = st.marks.length
  tln : st'.tagCsMark.length = st.tagCsMark.length
  cln : st'.csMark.length = st.csMark.length

/-- One operation of the emission phase of the run: emitting a commit
changeset (the emission scheduler only hands `print_commit` changesets whose
mark is still unset), emitting a tag changeset, or flushing a branch's
pending fix-ups (the tag index names an existing tag, as the arrays are
allocated per tag). -/
inductive Step (db : DB) (server : Server) : St → St → Prop where
  | commit {st : St} (c : Nat) {st1 : St} (hm : st.csMark.getD c 0 = 0)
      (hp : print_commit db server st c = some st1) : Step db server st st1
  | tag {st : St} (t : Nat) {st1 : St} (ht : t < db.tags.length)
      (hp : print_tag db server st t = some st1) : Step db server st st1
  | fixups {st : St} (base : Option (List (Option Nat))) (t : Nat)
      (cutoff : Option Time) {st1 : St} (ht : t < db.tags.length)
      (hp : print_fixups db server st base t cutoff = some st1) :
      Step db server st st1

/-- A finite sequence of emitter operations. -/
inductive Steps (db : DB) (server : Server) : St → St → Prop where
  | refl (st : St) : Steps db server st st
  | tail {st st1 st2 : St} (hs : Steps db server st st1)
      (h : Step db server st1 st2) : Steps db server st st2

/-! ### Concrete fixtures used by witnesses and counterexamples. -/

/-- A single-file, single-version database. -/
def dbOneV : DB :=
  { files := [⟨"a.txt"⟩],
    versions :=
      [ { file := 0, version := "1.1", vtime := 5, branch := some 0, dead := false,
          author := "u", log := "init", used := true } ],
    changesets := [],
    tags := [ { tag := "", tagFiles := [], parent := none, csTime := 0 } ] }

/-- A fresh state for `dbOneV`. -/
def stOneV : St :=
  { marks := [none], execs := [false], counter := 0, out := [], reqs := [],
    csMark := [], tagCsMark := [0], branchVersions := [none], lastCs := [none],
    fixupFlag := [false], fixupsRem := [[]] }

/-- A server that answers every single-version request with that version. -/
def srvSingles : Server := fun r =>
  match r with
  | Request.single v => [⟨v, false⟩]
  | _ => []

/-- The state after fetching version 0 of `dbOneV`. -/
def stOneVres : St := (grab_versions dbOneV srvSingles stOneV [0]).getD stOneV

/-- Two files whose versions share the version-id string `1.1`. -/
def dbIdver : DB :=
  { files := [⟨"f0"⟩, ⟨"f1"⟩],
    versions :=
      [ { file := 0, version := "1.1", vtime := 1, branch := some 0, dead := false,
          author := "u", log := "l", used := true },
        { file := 1, version := "1.1", vtime := 2, branch := some 0, dead := false,
          author := "u", log := "l", used := true } ],
    changesets := [],
    tags := [ { tag := "b", tagFiles := [], parent := none, csTime := 0 } ] }

/-- A fresh two-version state. -/
def stTwoV : St :=
  { marks := [none, none], execs := [false, false], counter := 0, out := [], reqs := [],
    csMark := [], tagCsMark := [0], branchVersions := [none], lastCs := [none],
    fixupFlag := [false], fixupsRem := [[]] }

/-- A server that returns no file bodies at all. -/
def srvNone : Server := fun _ => []

/-- The state `grab_versions` returns on the same-version-id batch of
`dbIdver` when the server returns nothing. -/
def stIdverRes : St := (grab_versions dbIdver srvNone stTwoV [0, 1]).getD stTwoV

/-- Two files on a branch: the tag modifies `f0` (to version 2, time 10) and
deletes `f1` (no tag entry). -/
def dbTagA : DB :=
  { files := [⟨"f0"⟩, ⟨"f1"⟩],
    versions :=
      [ { file := 0, version := "1.1", vtime := 1, branch := some 0, dead := false,
          author := "u", log := "l", used := true },
        { file := 1, version := "1.2", vtime := 2, branch := some 0, dead := false,
          author := "u", log := "l", used := true },
        { file := 0, version := "1.3", vtime := 10, branch := some 0, dead := false,
          author := "u", log := "l", used := true } ],
    changesets := [],
    tags := [ { tag := "", tagFiles := [], parent := none, csTime := 0 },
              { tag := "v1", tagFiles := [2], parent := some (CsId.tagCs 0),
                csTime := 100 } ] }

/-- The parent branch's tip versions for `dbTagA`: both files live. -/
def baseTagA : List (Option Nat) := [some 0, some 1]

/-- A state for `dbTagA` in which the trunk has been emitted (its tips are
`baseTagA`) and the tag `v1` is about to be released. -/
def stTagA : St :=
  { marks := [none, none, none], execs := [false, false, false], counter := 0,
    out := [], reqs := [], csMark := [], tagCsMark := [0, 0],
    branchVersions := [some [some 0, some 1], none],
    lastCs := [some (CsId.tagCs 0), none], fixupFlag := [false, false],
    fixupsRem := [[], []] }


/-- One file whose tag target is a dead version at time 5. -/
def dbDeadTgt : DB :=
  { files := [⟨"f0"⟩],
    versions :=
      [ { file := 0, version := "1.1", vtime := 1, branch := some 0, dead := false,
          author := "u", log := "l", used := true },
        { file := 0, version := "1.2", vtime := 5, branch := some 0, dead := true,
          author := "u", log := "l", used := true } ],
    changesets := [],
    tags := [ { tag := "", tagFiles := [], parent := none, csTime := 0 } ] }

/-- Two versions at the same time with different version ids, the first on
branch `b` and the second on no branch at all. -/
def dbMixed : DB :=
  { files := [⟨"f0"⟩, ⟨"f1"⟩],
    versions :=
      [ { file := 0, version := "1.1", vtime := 0, branch := some 0, dead := false,
          author := "u", log := "l", used := true },
        { file := 1, version := "1.2", vtime := 0, branch := none, dead := false,
          author := "u", log := "l", used := true } ],
    changesets := [],
    tags := [ { tag := "b", tagFiles := [], parent := none, csTime := 0 } ] }

/-- A single commit changeset on the trunk: one live version of one file. -/
def dbCommit : DB :=
  { files := [⟨"a.txt"⟩],
    versions :=
      [ { file := 0, version := "1.1", vtime := 5, branch := some 0, dead := false,
          author := "u", log := "init", used := true } ],
    changesets := [ { versions := [0], ctime := 5 } ],
    tags := [ { tag := "", tagFiles := [], parent := none, csTime := 0 } ] }

/-- A fresh state for `dbCommit`: the trunk has been reset, nothing fetched. -/
def stCommit : St :=
  { marks := [none], execs := [false], counter := 0, out := [], reqs := [],
    csMark := [0], tagCsMark := [0], branchVersions := [some [none]],
    lastCs := [some (CsId.tagCs 0)], fixupFlag := [false], fixupsRem := [[]] }

/-- The state after emitting the single commit of `dbCommit`. -/
def stCommitRes : St := (print_commit dbCommit srvSingles stCommit 0).getD stCommit

/-- A state for `dbCommit` with one pending fix-up adding version 0. -/
def stFix : St :=
  { marks := [none], execs := [false], counter := 0, out := [], reqs := [],
    csMark := [0], tagCsMark := [0], branchVersions := [some [none]],
    lastCs := [some (CsId.tagCs 0)], fixupFlag := [false],
    fixupsRem := [[{ file := 0, version := some 0, ftime := 1 }]] }

/-- The state after flushing the pending fix-up of `stFix`. -/
def stFixRes : St :=
  (print_fixups dbCommit srvSingles stFix (some [none]) 0 none).getD stFix

/-- A state for `dbCommit` whose trunk tip already holds version 0, making
the changeset a no-op. -/
def stNil : St :=
  { marks := [some 1], execs := [false], counter := 1, out := [], reqs := [],
    csMark := [0], tagCsMark := [0], branchVersions := [some [some 0]],
    lastCs := [some (CsId.tagCs 0)], fixupFlag := [false], fixupsRem := [[]] }

/-- The state after the no-op `print_commit` on `stNil`. -/
def stNilRes : St := (print_commit dbCommit srvSingles stNil 0).getD stNil

/-- A changeset holding a used dead version of `f0` (whose tip is already
null, so it is not a delta) together with a genuine change of `f1`. -/
def dbExtra : DB :=
  { files := [⟨"f0"⟩, ⟨"f1"⟩],
    versions :=
      [ { file := 0, version := "1.1", vtime := 5, branch := some 0, dead := true,
          author := "u", log := "l", used := true },
        { file := 1, version := "1.1", vtime := 5, branch := some 0, dead := false,
          author := "u", log := "l", used := true } ],
    changesets := [ { versions := [0, 1], ctime := 5 } ],
    tags := [ { tag := "", tagFiles := [], parent := none, csTime := 0 } ] }

/-- A fresh state for `dbExtra` with all-null trunk tips. -/
def stExtra : St :=
  { marks := [none, none], execs := [false, false], counter := 0, out := [], reqs := [],
    csMark := [0], tagCsMark := [0], branchVersions := [some [none, none]],
    lastCs := [some (CsId.tagCs 0)], fixupFlag := [false], fixupsRem := [[]] }

/-- The state after emitting the `dbExtra` changeset. -/
def stExtraRes : St := (print_commit dbExtra srvSingles stExtra 0).getD stExtra

/-- A no-op changeset on `f0` while a fix-up for `f1` is still pending on
the trunk. -/
def dbNoop : DB :=
  { files := [⟨"f0"⟩, ⟨"f1"⟩],
    versions :=
      [ { file := 0, version := "1.1", vtime := 1, branch := some 0, dead := false,
          author := "u", log := "l", used := true },
        { file := 1, version := "1.2", vtime := 0, branch := some 0, dead := false,
          author := "u", log := "l", used := true } ],
    changesets := [ { versions := [0], ctime := 5 } ],
    tags := [ { tag := "", tagFiles := [], parent := none, csTime := 0 } ] }

/-- A state for `dbNoop`: the trunk tip already holds version 0 of `f0` and
a fix-up targeting version 1 of `f1` is pending. -/
def stNoop : St :=
  { marks := [some 1, none], execs := [false, false], counter := 1, out := [], reqs := [],
    csMark := [0], tagCsMark := [0], branchVersions := [some [some 0, none]],
    lastCs := [some (CsId.tagCs 0)], fixupFlag := [false],
    fixupsRem := [[{ file := 1, version := some 1, ftime := 0 }]] }

/-- The state after the no-op `print_commit` on `stNoop` (which still
flushes the pending fix-up). -/
def stNoopRes : St := (print_commit dbNoop srvSingles stNoop 0).getD stNoop

/-- Two files on the trunk with two pending fix-ups, one at time 1 adding
version 0 of `f0` and one at time 10 adding version 1 of `f1`. -/
def dbFix2 : DB :=
  { files := [⟨"f0"⟩, ⟨"f1"⟩],
    versions :=
      [ { file := 0, version := "1.1", vtime := 1, branch := some 0, dead := false,
          author := "u", log := "l", used := true },
        { file := 1, version := "1.2", vtime := 1, branch := some 0, dead := false,
          author := "u", log := "l", used := true } ],
    changesets := [],
    tags := [ { tag := "", tagFiles := [], parent := none, csTime := 0 } ] }

/-- A state for `dbFix2` with both fix-ups still pending on the trunk. -/
def stFix2 : St :=
  { marks := [none, none], execs := [false, false], counter := 0, out := [],
    reqs := [], csMark := [], tagCsMark := [0],
    branchVersions := [some [none, none]], lastCs := [some (CsId.tagCs 0)],
    fixupFlag := [false],
    fixupsRem := [[{ file := 0, version := some 0, ftime := 1 },
                   { file := 1, version := some 1, ftime := 10 }]] }

/-- The state after flushing the fix-ups of `stFix2` due before time 5. -/
def stFix2a : St :=
  (print_fixups dbFix2 srvSingles stFix2 (some [none, none]) 0 (some 5)).getD stFix2

/-- The state after then flushing the remaining fix-up of `stFix2a`. -/
def stFix2b : St :=
  (print_fixups dbFix2 srvSingles stFix2a (some [some 0, none]) 0 none).getD stFix2a

/-! ### Basic lemmas. -/

theorem charsLe_total : ∀ (a b : List Char), charsLe a b = true ∨ charsLe b a = true
  | [], _ => Or.inl rfl
  | _ :: _, [] => Or.inr rfl
  | a :: as, b :: bs => by
    unfold charsLe
    rcases Nat.lt_trichotomy a.toNat b.toNat with h | h | h
    · left
      simp [h]
    · have h1 : ¬ a.toNat < b.toNat := by omega
      have h2 : ¬ b.toNat < a.toNat := by omega
      simpa [h1, h2] using charsLe_total as bs
    · right
      simp [h]

theorem charsLe_trans : ∀ (a b c : List Char),
    charsLe a b = true → charsLe b c = true → charsLe a c = true
  | [], _, _, _, _ => rfl
  | _ :: _, [], _, h1, _ => absurd h1 (by simp [charsLe])
  | _ :: _, _ :: _, [], _, h2 => absurd h2 (by simp [charsLe])
  | a :: as, b :: bs, c :: cs, h1, h2 => by
    unfold charsLe at h1 h2 ⊢
    by_cases hab : a.toNat < b.toNat
    · by_cases hbc : b.toNat < c.toNat
      · simp [show a.toNat < c.toNat by omega]
      · by_cases hcb : c.toNat < b.toNat
        · simp [hbc, hcb] at h2
        · simp [show a.toNat < c.toNat by omega]
    · by_cases hba : b.toNat < a.toNat
      · simp [hab, hba] at h1
      · by_cases hbc : b.toNat < c.toNat
        · simp [show a.toNat < c.toNat by omega]
        · by_cases hcb : c.toNat < b.toNat
          · simp [hbc, hcb] at h2
          · have h1' : charsLe as bs = true := by simpa [hab, hba] using h1
            have h2' : charsLe bs cs = true := by simpa [hbc, hcb] using h2
            have hac1 : ¬ a.toNat < c.toNat := by omega
            have hac2 : ¬ c.toNat < a.toNat := by omega
            simpa [hac1, hac2] using charsLe_trans as bs cs h1' h2'

instance : IsTotal String strLe := ⟨fun a b => charsLe_total a.data b.data⟩

instance : IsTrans String strLe :=
  ⟨fun a b c h h2 => charsLe_trans a.data b.data c.data h h2⟩

instance : IsTotal FixupVer fvLe := ⟨fun a b => le_total a.ftime b.ftime⟩

instance : IsTrans FixupVer fvLe := ⟨fun _ _ _ h h2 => le_trans h h2⟩

theorem getD_set_self {α : Type} (l : List α) (i : Nat) (a d : α) (h : i < l.length) :
    (l.set i a).getD i d = a := by
  simp [List.getD_eq_getElem?_getD, List.getElem?_set_self', h]

theorem getD_set_ne {α : Type} (l : List α) (i j : Nat) (a d : α) (h : i ≠ j) :
    (l.set i a).getD j d = l.getD j d := by
  simp [List.getD_eq_getElem?_getD, List.getElem?_set_ne h]

theorem GV_refl (st : St) : GV st st where
  mono := fun _ _ h => h
  app := ⟨[], by simp, by simp⟩
  cnt := fun v => by cases h : markOf st v <;> simp [h]
  ctr := le_refl _
  inv := id
  csm := rfl
  tcm := rfl
  bvs := rfl
  lst := rfl
  ffl := rfl
  frm := rfl
  mln := rfl

theorem GV_trans {s1 s2 s3 : St} (a : GV s1 s2) (b : GV s2 s3) : GV s1 s3 := by
  refine ⟨fun v m h => b.mono v m (a.mono v m h), ?_, ?_, le_trans a.ctr b.ctr,
    fun h => b.inv (a.inv h), b.csm.trans a.csm, b.tcm.trans a.tcm,
    b.bvs.trans a.bvs, b.lst.trans a.lst, b.ffl.trans a.ffl,
    b.frm.trans a.frm, b.mln.trans a.mln⟩
  · obtain ⟨d1, ho1, hb1⟩ := a.app
    obtain ⟨d2, ho2, hb2⟩ := b.app
    refine ⟨d1 ++ d2, by rw [ho2, ho1, List.append_assoc], ?_⟩
    intro r hr
    rcases List.mem_append.mp hr with h | h
    · exact hb1 r h
    · exact hb2 r h
  · intro v
    rw [b.cnt v, a.cnt v]
    rcases h1 : markOf s1 v with _ | m1
    · rcases h2 : markOf s2 v with _ | m2
      · simp only [h1, h2]
        rcases h3 : markOf s3 v with _ | m3 <;> simp [h3, Nat.add_assoc]
      · have h3 := b.mono v m2 h2
        simp [h1, h2, h3]
    · have h2 := a.mono v m1 h1
      have h3 := b.mono v m1 h2
      simp [h1, h2, h3]

/-- Appending a record that defines the mark `counter + 1` and stepping the
counter preserves the mark invariant. -/
theorem MarksInv_snoc {st st' : St} (r : Record) (h : MarksInv st)
    (hout : st'.out = st.out ++ [r]) (hctr : st'.counter = st.counter + 1)
    (hr : recDefMark r = some (st.counter + 1)) : MarksInv st' := by
  obtain ⟨hch, hbd⟩ := h
  have hdm : defMarks st'.out = defMarks st.out ++ [st.counter + 1] := by
    rw [hout]
    unfold defMarks
    rw [List.filterMap_append]
    simp [hr]
  constructor
  · rw [hdm]
    rw [List.chain'_append]
    refine ⟨hch, List.chain'_singleton _, ?_⟩
    intro x hx y hy
    simp only [List.head?_cons, Option.mem_def, Option.some.injEq] at hy
    subst hy
    have hxm : x ∈ defMarks st.out := List.mem_of_mem_getLast? hx
    exact Nat.lt_succ_of_le (hbd x hxm).2
  · intro m hm
    rw [hdm] at hm
    rcases List.mem_append.mp hm with h | h
    · rcases hbd m h with ⟨hp, hle⟩
      exact ⟨hp, by omega⟩
    · simp only [List.mem_singleton] at h
      subst h
      exact ⟨Nat.succ_pos _, by omega⟩

/-- Appending a record that defines no mark preserves the mark invariant as
long as the counter does not decrease. -/
theorem MarksInv_skip {st st' : St} (r : Record) (h : MarksInv st)
    (hout : st'.out = st.out ++ [r]) (hctr : st.counter ≤ st'.counter)
    (hr : recDefMark r = none) : MarksInv st' := by
  obtain ⟨hch, hbd⟩ := h
  have hdm : defMarks st'.out = defMarks st.out := by
    rw [hout]
    unfold defMarks
    rw [List.filterMap_append]
    simp [hr]
  rw [MarksInv, hdm]
  refine ⟨hch, fun m hm => ?_⟩
  rcases hbd m hm with ⟨hp, hle⟩
  exact ⟨hp, le_trans hle hctr⟩

/-- A state change that keeps the output and does not decrease the counter
preserves the mark invariant. -/
theorem MarksInv_keep {st st' : St} (h : MarksInv st)
    (hout : st'.out = st.out) (hctr : st.counter ≤ st'.counter) : MarksInv st' := by
  obtain ⟨hch, hbd⟩ := h
  rw [MarksInv, hout]
  refine ⟨hch, fun m hm => ?_⟩
  rcases hbd m hm with ⟨hp, hle⟩
  exact ⟨hp, le_trans hle hctr⟩

/-! ### The fetch driver satisfies `GV`. -/

theorem read_version_gv {db : DB} {st : St} {it : ReplyItem} {st' : St}
    (hw : WfSt db st) (h : read_version db st it = some st') : GV st st' := by
  unfold read_version at h
  split at h
  case isFalse => exact absurd h (by simp)
  case isTrue hv =>
    split at h
    case h_2 m hm =>
      injection h with h
      subst h
      refine ⟨fun _ _ h => h, ⟨[], by simp, by simp⟩, fun v => ?_, le_refl _,
        fun hinv => MarksInv_keep hinv rfl (le_refl _), rfl, rfl, rfl, rfl, rfl, rfl, by simp⟩
      show blobCount v st.out =
        blobCount v st.out + (if markOf st v = none ∧ markOf st v ≠ none then 1 else 0)
      cases h : markOf st v <;> simp [h]
    case h_1 hm =>
      injection h with h
      subst h
      have hlt : it.v < st.marks.length := lt_of_lt_of_le hv hw
      refine ⟨?_, ⟨[Record.blob (st.counter + 1) it.v], rfl, by simp [isBlob]⟩,
        ?_, Nat.le_succ _, ?_, rfl, rfl, rfl, rfl, rfl, rfl, by simp⟩
      · intro v m hvm
        by_cases hvv : v = it.v
        · subst hvv
          rw [markOf, hm] at hvm
          exact absurd hvm (by simp)
        · show (st.marks.set it.v _).getD v none = some m
          rw [getD_set_ne _ _ _ _ _ (fun he => hvv he.symm)]
          exact hvm
      · intro v
        show blobCount v (st.out ++ [Record.blob (st.counter + 1) it.v]) = _
        rw [blobCount, List.countP_append]
        by_cases hvv : v = it.v
        · subst hvv
          have hnew : markOf { st with
              execs := st.execs.set it.v it.ex, counter := st.counter + 1,
              marks := st.marks.set it.v (some (st.counter + 1)),
              out := st.out ++ [Record.blob (st.counter + 1) it.v] } it.v =
              some (st.counter + 1) := by
            show (st.marks.set it.v _).getD it.v none = _
            exact getD_set_self _ _ _ _ hlt
          rw [hnew]
          have hm2 : st.marks[it.v]?.getD none = (none : Option Nat) := by
            rw [← List.getD_eq_getElem?_getD]
            exact hm
          simp [markOf, hm, hm2, isBlobFor, blobCount]
        · have hsame : markOf { st with
              execs := st.execs.set it.v it.ex, counter := st.counter + 1,
              marks := st.marks.set it.v (some (st.counter + 1)),
              out := st.out ++ [Record.blob (st.counter + 1) it.v] } v =
              markOf st v := by
            show (st.marks.set it.v _).getD v none = _
            exact getD_set_ne _ _ _ _ _ (fun he => hvv he.symm)
          rw [hsame]
          have : isBlobFor v (Record.blob (st.counter + 1) it.v) = false := by
            simp [isBlobFor, hvv, Ne.symm hvv]
          cases hmk : markOf st v <;> simp [this, blobCount, hmk]
      · intro hinv
        exact MarksInv_snoc (Record.blob (st.counter + 1) it.v) hinv rfl rfl rfl

theorem WfSt_of_gv {db : DB} {st st' : St} (hw : WfSt db st) (g : GV st st') :
    WfSt db st' := by
  show db.versions.length ≤ st'.marks.length
  rw [g.mln]
  exact hw

theorem read_versions_gv {db : DB} {items : List ReplyItem} : ∀ {st st' : St},
    WfSt db st → read_versions db st items = some st' → GV st st' := by
  induction items with
  | nil =>
    intro st st' _ h
    unfold read_versions at h
    injection h with h
    subst h
    exact GV_refl st
  | cons it rest ih =>
    intro st st' hw h
    unfold read_versions at h
    cases hh : read_version db st it with
    | none => rw [hh] at h; exact absurd h (by simp)
    | some st1 =>
      rw [hh] at h
      have g1 := read_version_gv hw hh
      exact GV_trans g1 (ih (WfSt_of_gv hw g1) h)

/-- Changing only the request log is a trivial `GV` step. -/
theorem GV_addReq (st : St) (r : Request) : GV st { st with reqs := st.reqs ++ [r] } where
  mono := fun _ _ h => h
  app := ⟨[], by simp, by simp⟩
  cnt := fun v => by
    cases h : markOf st v
    all_goals simp [markOf] at h ⊢
    all_goals simp [h]
  ctr := le_refl _
  inv := fun h => MarksInv_keep h rfl (le_refl _)
  csm := rfl
  tcm := rfl
  bvs := rfl
  lst := rfl
  ffl := rfl
  frm := rfl
  mln := rfl

theorem grab_version_gv {db : DB} {server : Server} {st : St} {v : Nat} {st' : St}
    (hw : WfSt db st) (h : grab_version db server st v = some st') : GV st st' := by
  unfold grab_version at h
  split at h
  case isFalse => exact absurd h (by simp)
  case isTrue hv =>
    split at h
    case h_1 m hm =>
      injection h with h
      subst h
      exact GV_refl st
    case h_2 hm =>
      split at h
      case h_2 heq => exact absurd h (by simp)
      case h_1 st1 heq =>
        split at h
        case isTrue => exact absurd h (by simp)
        case isFalse hn =>
          injection h with h
          subst h
          exact GV_trans (GV_addReq st (Request.single v)) (read_versions_gv hw heq)

/-- `grab_version` leaves its version marked whenever it returns. -/
theorem grab_version_marked {db : DB} {server : Server} {st : St} {v : Nat} {st' : St}
    (h : grab_version db server st v = some st') : markOf st' v ≠ none := by
  unfold grab_version at h
  split at h
  case isFalse => exact absurd h (by simp)
  case isTrue hv =>
    split at h
    case h_1 m hm =>
      injection h with h
      subst h
      rw [markOf, hm]
      simp
    case h_2 hm =>
      split at h
      case h_2 heq => exact absurd h (by simp)
      case h_1 st1 heq =>
        split at h
        case isTrue => exact absurd h (by simp)
        case isFalse hn =>
          injection h with h
          subst h
          rw [markOf]
          intro he
          exact hn (by rw [he]; rfl)

theorem grab_by_option_gv {db : DB} {server : Server} {st : St}
    {rArg : Option String} {dArg : Option Time} {fetch : List Nat} {st' : St}
    (hw : WfSt db st) (h : grab_by_option db server st rArg dArg fetch = some st') :
    GV st st' := by
  unfold grab_by_option at h
  split at h
  case isFalse => exact absurd h (by simp)
  case isTrue ha =>
    split at h
    case isTrue => exact absurd h (by simp)
    case isFalse =>
      exact GV_trans (GV_addReq st _) (read_versions_gv hw h)

theorem grabDatePhase_gv {db : DB} {server : Server} {st : St}
    {v0 : Nat} {vrest : List Nat} {st' : St}
    (hw : WfSt db st) (h : grabDatePhase db server st v0 vrest = some st') :
    GV st st' := by
  unfold grabDatePhase at h
  split at h
  · exact grab_by_option_gv hw h
  · injection h with h
    subst h
    exact GV_refl st

theorem grabRetry_gv {db : DB} {server : Server} {fetch : List Nat} : ∀ {st st' : St},
    WfSt db st → grabRetry db server st fetch = some st' → GV st st' := by
  induction fetch with
  | nil =>
    intro st st' _ h
    unfold grabRetry at h
    injection h with h
    subst h
    exact GV_refl st
  | cons v rest ih =>
    intro st st' hw h
    unfold grabRetry at h
    split at h
    · cases hg : grab_version db server st v with
      | none => rw [hg] at h; exact absurd h (by simp)
      | some st1 =>
        rw [hg] at h
        have g1 := grab_version_gv hw hg
        exact GV_trans g1 (ih (WfSt_of_gv hw g1) h)
    · exact ih hw h

/-- The retry loop leaves every version of its list marked. -/
theorem grabRetry_marked {db : DB} {server : Server} {fetch : List Nat} : ∀ {st st' : St},
    WfSt db st → grabRetry db server st fetch = some st' →
    ∀ v ∈ fetch, markOf st' v ≠ none := by
  induction fetch with
  | nil => intro st st' _ _ v hv; exact absurd hv (by simp)
  | cons w rest ih =>
    intro st st' hw h v hv
    unfold grabRetry at h
    split at h
    case isTrue hm =>
      cases hg : grab_version db server st w with
      | none => rw [hg] at h; exact absurd h (by simp)
      | some st1 =>
        rw [hg] at h
        rcases List.mem_cons.mp hv with he | hm2
        · subst he
          have hmk := grab_version_marked hg
          rcases hmk2 : markOf st1 v with _ | m
          · exact absurd hmk2 hmk
          · have := (grabRetry_gv (WfSt_of_gv hw (grab_version_gv hw hg)) h).mono v m hmk2
            rw [this]
            simp
        · exact ih (WfSt_of_gv hw (grab_version_gv hw hg)) h v hm2
    case isFalse hm =>
      rcases List.mem_cons.mp hv with he | hm2
      · subst he
        have hne : markOf st v ≠ none := by
          rw [markOf]
          intro he2
          exact hm (by rw [he2]; rfl)
        rcases hmk2 : markOf st v with _ | m
        · exact absurd hmk2 hne
        · have := (grabRetry_gv hw h).mono v m hmk2
          rw [this]
          simp
      · exact ih hw h v hm2

theorem grab_versions_gv {db : DB} {server : Server} {st : St} {fetch : List Nat} {st' : St}
    (hw : WfSt db st) (h : grab_versions db server st fetch = some st') : GV st st' := by
  match fetch with
  | [] =>
    simp only [grab_versions] at h
    injection h with h
    subst h
    exact GV_refl st
  | [v] =>
    simp only [grab_versions] at h
    exact grab_version_gv hw h
  | v0 :: v1 :: rest =>
    simp only [grab_versions] at h
    split at h
    · exact grab_by_option_gv hw h
    · split at h
      case h_2 heq => exact absurd h (by simp)
      case h_1 st1 heq =>
        have g1 := grabDatePhase_gv hw heq
        exact GV_trans g1 (grabRetry_gv (WfSt_of_gv hw g1) h)

/-- On the singleton path and on the differing-version-id paths,
`grab_versions` leaves every requested version marked. -/
theorem grab_versions_marked {db : DB} {server : Server} {st : St}
    {fetch : List Nat} {st' : St}
    (hw : WfSt db st) (h : grab_versions db server st fetch = some st')
    (hni : fetch.length = 1 ∨
      fetch.all (fun v => (getV db v).version = (getV db (fetch.headD 0)).version) = false) :
    ∀ v ∈ fetch, markOf st' v ≠ none := by
  match fetch with
  | [] => intro v hv; exact absurd hv (List.not_mem_nil v)
  | [w] =>
    simp only [grab_versions] at h
    intro v hv
    rw [List.mem_singleton.mp hv]
    exact grab_version_marked h
  | v0 :: v1 :: rest =>
    simp only [grab_versions] at h
    split at h
    case isTrue hall =>
      rcases hni with h1 | h2
      · simp at h1
      · rw [List.headD_cons] at h2
        rw [hall] at h2
        exact absurd h2 (by simp)
    case isFalse hall =>
      split at h
      case h_2 heq => exact absurd h (by simp)
      case h_1 st1 heq =>
        exact grabRetry_marked (WfSt_of_gv hw (grabDatePhase_gv hw heq)) h

/-- C1 (amended): whenever `grab_versions` returns, versions already marked
on entry keep their mark and gain no new blob record, exactly one blob
record is emitted for each newly marked version, and — on the singleton path
and on the paths where the version-id strings differ (date batch with
individual retries, or plain individual fetches) — every requested version
carries a non-sentinel mark on return.  (On the all-same-version-id batch
path, versions the server's reply omits may remain at the sentinel.) -/
theorem grab_versions_contract {db : DB} {server : Server} {st : St}
    {fetch : List Nat} {st' : St}
    (hw : WfSt db st) (h : grab_versions db server st fetch = some st') :
    (∀ v m, markOf st v = some m → markOf st' v = some m) ∧
    (∀ v, blobCount v st'.out =
      blobCount v st.out + (if markOf st v = none ∧ markOf st' v ≠ none then 1 else 0)) ∧
    ((fetch.length = 1 ∨
        fetch.all (fun v => (getV db v).version = (getV db (fetch.headD 0)).version) = false) →
      ∀ v ∈ fetch, markOf st' v ≠ none) := by
  have g := grab_versions_gv hw h
  exact ⟨g.mono, g.cnt, fun hni => grab_versions_marked hw h hni⟩

/-- C1 witness: the contract instantiated on a successful singleton fetch. -/
theorem grab_versions_contract_witness :
    dbOneV.versions.length ≤ stOneV.marks.length ∧
    grab_versions dbOneV srvSingles stOneV [0] = some stOneVres ∧
    ((∀ v m, markOf stOneV v = some m → markOf stOneVres v = some m) ∧
     (∀ v, blobCount v stOneVres.out =
       blobCount v stOneV.out +
         (if markOf stOneV v = none ∧ markOf stOneVres v ≠ none then 1 else 0)) ∧
     (([0].length = 1 ∨
         [0].all (fun v => (getV dbOneV v).version = (getV dbOneV ([0].headD 0)).version) = false) →
       ∀ v ∈ [0], markOf stOneVres v ≠ none)) :=
  ⟨by decide, by decide,
    @grab_versions_contract dbOneV srvSingles stOneV [0] stOneVres
      (by decide : dbOneV.versions.length ≤ stOneV.marks.length) (by decide)⟩

/-- C1 counterexample: on a same-version-id batch whose reply omits both
versions, `grab_versions` returns normally with both versions still at the
sentinel mark, so the claim that every requested version carries a
non-sentinel mark on return is false as stated. -/
theorem grab_versions_idver_unmarked :
    grab_versions dbIdver srvNone stTwoV [0, 1] = some stIdverRes ∧
    markOf stIdverRes 0 = none ∧ markOf stIdverRes 1 = none := by
  refine ⟨by decide, by decide, by decide⟩

/-- The `if`/`else if` min/max loop of `grab_versions` computes the fold
minimum and maximum of its list, given an ordered seed pair. -/
theorem minmaxLoop_eq : ∀ (l : List Time) (a b : Time), a ≤ b →
    minmaxLoop l (a, b) = (l.foldl min a, l.foldl max b)
  | [], _, _, _ => rfl
  | t :: l, a, b, hab => by
    unfold minmaxLoop
    by_cases h1 : t < a
    · rw [if_pos h1, minmaxLoop_eq l t b (le_trans (le_of_lt h1) hab),
        List.foldl_cons, List.foldl_cons,
        min_eq_right (le_of_lt h1), max_eq_left (le_trans (le_of_lt h1) hab)]
    · rw [if_neg h1]
      by_cases h2 : t > b
      · rw [if_pos h2, minmaxLoop_eq l a t (le_trans hab (le_of_lt h2)),
          List.foldl_cons, List.foldl_cons,
          min_eq_left (le_trans hab (le_of_lt h2)), max_eq_right (le_of_lt h2)]
      · rw [if_neg h2, minmaxLoop_eq l a b hab,
          List.foldl_cons, List.foldl_cons,
          min_eq_left (le_of_not_lt h1), max_eq_left (le_of_not_gt h2)]

/-- C2 (amended): `grab_versions` chooses its fetch strategy in the spec's
preference order, except that the date-batch condition looks only at the
first version's branch: a singleton set is fetched by version id; else a set
sharing one version-id string is fetched in one batch keyed by that
revision; else, if the first version has a branch and the time range is
under the 300-second window, one batch keyed by that branch's tag (omitted
when the tag is the empty trunk name) and the upper-bound date is issued and
versions still at the sentinel are retried individually; else versions still
at the sentinel are fetched individually. -/
theorem grabDatePhase_foldl (db : DB) (server : Server) (st : St)
    (v0 : Nat) (vrest : List Nat) :
    grabDatePhase db server st v0 vrest =
    if (vrest.map (fun v => (getV db v).vtime)).foldl max (getV db v0).vtime -
       (vrest.map (fun v => (getV db v).vtime)).foldl min (getV db v0).vtime < 300 ∧
       (getV db v0).branch.isSome then
      grab_by_option db server st (branchArg db v0)
        (some ((vrest.map (fun v => (getV db v).vtime)).foldl max (getV db v0).vtime))
        (v0 :: vrest)
    else some st := by
  unfold grabDatePhase
  rw [minmaxLoop_eq _ _ _ (le_refl _)]

theorem grab_versions_strategy (db : DB) (server : Server) (st : St) (fetch : List Nat) :
    grab_versions db server st fetch = grabVersionsSpec db server st fetch := by
  match fetch with
  | [] => rfl
  | [v] => rfl
  | v0 :: v1 :: rest =>
    simp only [grab_versions, grabVersionsSpec]
    rw [grabDatePhase_foldl]
    by_cases hall : ((v0 :: v1 :: rest).all fun v =>
        decide ((getV db v).version = (getV db v0).version)) = true
    · rw [if_pos hall, if_pos hall]
    · rw [if_neg hall, if_neg hall]
      have hmax : ((v0 :: v1 :: rest).map (fun v => (getV db v).vtime)).foldl max
            (getV db v0).vtime =
          ((v1 :: rest).map (fun v => (getV db v).vtime)).foldl max (getV db v0).vtime := by
        rw [List.map_cons, List.foldl_cons, max_self]
      have hmin : ((v0 :: v1 :: rest).map (fun v => (getV db v).vtime)).foldl min
            (getV db v0).vtime =
          ((v1 :: rest).map (fun v => (getV db v).vtime)).foldl min (getV db v0).vtime := by
        rw [List.map_cons, List.foldl_cons, min_self]
      rw [hmax, hmin]
      by_cases hc2 : ((v1 :: rest).map (fun v => (getV db v).vtime)).foldl max
            (getV db v0).vtime -
          ((v1 :: rest).map (fun v => (getV db v).vtime)).foldl min (getV db v0).vtime < 300 ∧
          (getV db v0).branch.isSome = true
      · rw [if_pos hc2, if_pos hc2]
      · rw [if_neg hc2, if_neg hc2]

/-- Under strictly increasing keys that all occur in the (strictly
increasing) index list, the moving-pointer walk equals a per-index lookup. -/
theorem fileWalk_eq_map {γ α : Type} (key : γ → Nat) (step : Nat → Option γ → α) :
    ∀ (is : List Nat) (gs : List γ),
    List.Pairwise (· < ·) is →
    List.Pairwise (· < ·) (gs.map key) →
    (∀ g ∈ gs, key g ∈ is) →
    fileWalk key step is gs =
      is.map (fun i => step i (gs.find? (fun g => key g == i)))
  | [], [], _, _, _ => rfl
  | [], g :: gs, _, _, hmem => absurd (hmem g (List.mem_cons_self g gs)) (by simp)
  | i :: is, [], his, hks, hmem => by
    rw [fileWalk]
    rw [fileWalk_eq_map key step is [] (List.pairwise_cons.mp his).2 (by simp) (by simp)]
    simp [List.find?]
  | i :: is, g :: gs, his, hks, hmem => by
    have his2 := (List.pairwise_cons.mp his).2
    have hilt := (List.pairwise_cons.mp his).1
    rw [List.map_cons] at hks
    have hklt := (List.pairwise_cons.mp hks).1
    have hks2 := (List.pairwise_cons.mp hks).2
    rw [fileWalk]
    by_cases hk : key g = i
    · rw [if_pos hk]
      have hmem2 : ∀ g' ∈ gs, key g' ∈ is := by
        intro g' hg'
        have hlt : key g < key g' := hklt (key g') (List.mem_map_of_mem key hg')
        rcases List.mem_cons.mp (hmem g' (List.mem_cons_of_mem g hg')) with he | hi2
        · omega
        · exact hi2
      rw [fileWalk_eq_map key step is gs his2 hks2 hmem2]
      rw [List.map_cons]
      rw [List.find?_cons_of_pos _ (by simp [hk])]
      congr 1
      apply List.map_congr_left
      intro j hj
      have hij : i < j := hilt j hj
      rw [List.find?_cons_of_neg _ (by simp; omega)]
    · rw [if_neg hk]
      have hgis : key g ∈ is := by
        rcases List.mem_cons.mp (hmem g (List.mem_cons_self g gs)) with he | hi2
        · exact absurd he hk
        · exact hi2
      have higlt : i < key g := hilt (key g) hgis
      have hmem2 : ∀ g' ∈ g :: gs, key g' ∈ is := by
        intro g' hg'
        rcases List.mem_cons.mp hg' with he | hg2
        · subst he; exact hgis
        · have hlt : key g < key g' := hklt (key g') (List.mem_map_of_mem key hg2)
          rcases List.mem_cons.mp (hmem g' (List.mem_cons_of_mem g hg2)) with he2 | hi2
          · omega
          · exact hi2
      rw [fileWalk_eq_map key step is (g :: gs) his2 hks hmem2]
      rw [List.map_cons]
      congr 1
      rw [List.find?_cons_of_neg _ (by simp [hk])]
      rw [List.find?_eq_none.mpr]
      intro g' hg'
      have hki : key g' ∈ is := hmem2 g' (List.mem_cons_of_mem g hg')
      have : i < key g' := hilt (key g') hki
      simp
      omega

/-- C3 (amended): for a tag released onto a parent branch, `create_fixups`
produces (as a permutation of the canonical per-file list) exactly one entry
for each file whose live base version differs from the live target version
and no entry for any other file, each entry carrying the live target (null
for a deletion) and the target version's time — `TIME_MIN` only when the tag
has no version at all for the file, a dead target contributing its own
time — and the resulting list is sorted by time ascending. -/
theorem create_fixups_spec {db : DB} {bvs : Option (List (Option Nat))}
    {tagFiles : List Nat} (h : TagFilesAligned db tagFiles) :
    (create_fixups db bvs tagFiles).Perm
      ((List.range db.files.length).filterMap (fixupFor db bvs tagFiles)) ∧
    List.Sorted fvLe (create_fixups db bvs tagFiles) := by
  constructor
  · have hw : fileWalk (fun t => (getV db t).file) (cfStep db bvs)
        (List.range db.files.length) tagFiles =
        (List.range db.files.length).map
          (fun i => cfStep db bvs i
            (tagFiles.find? (fun t => ((getV db t).file : Nat) == i))) := by
      apply fileWalk_eq_map
      · exact List.pairwise_lt_range _
      · exact List.pairwise_map.mpr h.1
      · intro t ht
        exact List.mem_range.mpr (h.2 t ht)
    have hpt : ∀ i, cfStep db bvs i
        (tagFiles.find? (fun t => ((getV db t).file : Nat) == i)) =
        fixupFor db bvs tagFiles i := by
      intro i
      rfl
    rw [create_fixups, hw]
    have : ((List.range db.files.length).map
        (fun i => cfStep db bvs i
          (tagFiles.find? (fun t => ((getV db t).file : Nat) == i)))).reduceOption =
        (List.range db.files.length).filterMap (fixupFor db bvs tagFiles) := by
      simp only [hpt]
      simp [List.reduceOption, List.filterMap_map]
    rw [this]
    exact List.perm_insertionSort fvLe _
  · exact List.sorted_insertionSort fvLe _

/-- C3 witness: the characterisation instantiated on a tag that modifies one
file and deletes another. -/
theorem create_fixups_spec_witness :
    TagFilesAligned dbTagA [2] ∧
    ((create_fixups dbTagA (some baseTagA) [2]).Perm
      ((List.range dbTagA.files.length).filterMap (fixupFor dbTagA (some baseTagA) [2])) ∧
     List.Sorted fvLe (create_fixups dbTagA (some baseTagA) [2])) :=
  ⟨⟨by decide, by decide⟩, create_fixups_spec ⟨by decide, by decide⟩⟩

/-- C3 counterexample: a dead target version yields a deletion entry (null
version) whose time is the dead version's own time, 5, not the minimum time
value, so the claim's time rule is false as stated. -/
theorem create_fixups_dead_target_time :
    (getV dbDeadTgt 1).dead = true ∧
    create_fixups dbDeadTgt (some [some 0]) [1] =
      [{ file := 0, version := none, ftime := 5 }] ∧
    ¬ (5 : Time) = timeMin :=
  ⟨by decide, by decide, by decide⟩

theorem fccCat_keepC_iff (db : DB) (base : Option (List (Option Nat))) (i : Nat)
    (e : Option FixupVer) :
    fccCat db base i e = FCat.keepC ↔
    (fccTargetAtE e (version_live db (baseAt base i)) = version_live db (baseAt base i) ∧
     (version_live db (baseAt base i)).isSome = true) := by
  unfold fccCat
  generalize version_live db (baseAt base i) = bv
  generalize fccTargetAtE e bv = tv
  rcases bv with _ | b <;> rcases tv with _ | t
  · simp
  · simp
  · simp
  · by_cases hbt : b = t
    · subst hbt
      simp
    · simp [hbt, Ne.symm hbt]

theorem fccCat_delC_iff (db : DB) (base : Option (List (Option Nat))) (i : Nat)
    (e : Option FixupVer) :
    fccCat db base i e = FCat.delC ↔
    (¬ version_live db (baseAt base i) = fccTargetAtE e (version_live db (baseAt base i)) ∧
     fccTargetAtE e (version_live db (baseAt base i)) = none) := by
  unfold fccCat
  generalize version_live db (baseAt base i) = bv
  generalize fccTargetAtE e bv = tv
  rcases bv with _ | b <;> rcases tv with _ | t
  · simp
  · simp
  · simp
  · by_cases hbt : b = t
    · subst hbt
      simp
    · simp [hbt]

theorem fccCat_addC_iff (db : DB) (base : Option (List (Option Nat))) (i : Nat)
    (e : Option FixupVer) :
    fccCat db base i e = FCat.addC ↔
    (¬ version_live db (baseAt base i) = fccTargetAtE e (version_live db (baseAt base i)) ∧
     ¬ fccTargetAtE e (version_live db (baseAt base i)) = none ∧
     version_live db (baseAt base i) = none) := by
  unfold fccCat
  generalize version_live db (baseAt base i) = bv
  generalize fccTargetAtE e bv = tv
  rcases bv with _ | b <;> rcases tv with _ | t
  · simp
  · simp
  · simp
  · by_cases hbt : b = t
    · subst hbt
      simp
    · simp [hbt]

theorem fccCat_modC_iff (db : DB) (base : Option (List (Option Nat))) (i : Nat)
    (e : Option FixupVer) :
    fccCat db base i e = FCat.modC ↔
    (¬ version_live db (baseAt base i) = fccTargetAtE e (version_live db (baseAt base i)) ∧
     ¬ fccTargetAtE e (version_live db (baseAt base i)) = none ∧
     ¬ version_live db (baseAt base i) = none) := by
  unfold fccCat
  generalize version_live db (baseAt base i) = bv
  generalize fccTargetAtE e bv = tv
  rcases bv with _ | b <;> rcases tv with _ | t
  · simp
  · simp
  · simp
  · by_cases hbt : b = t
    · subst hbt
      simp
    · simp [hbt]

/-- The comment walk over the files equals a per-file lookup on an aligned
fixup list. -/
theorem fccWalk_eq_map {α : Type} {db : DB}
    {fixups : List FixupVer} (ha : FixupsAligned db fixups)
    (step : Nat → Option FixupVer → α) :
    fileWalk (fun fv => fv.file) step (List.range db.files.length) fixups =
      (List.range db.files.length).map
        (fun i => step i (fixups.find? (fun fv => fv.file == i))) := by
  apply fileWalk_eq_map
  · exact List.pairwise_lt_range _
  · exact List.pairwise_map.mpr ha.1
  · intro fv hfv
    exact List.mem_range.mpr (ha.2 fv hfv)

theorem fccCount_keepC {db : DB} {base : Option (List (Option Nat))}
    {fixups : List FixupVer} (ha : FixupsAligned db fixups) :
    fccCount db base fixups FCat.keepC = countKept db base fixups db.files.length := by
  rw [fccCount, fccWalk_eq_map ha, List.countP_map, countKept]
  apply List.countP_congr
  intro i _
  simp only [Function.comp_apply, decide_eq_true_eq]
  exact fccCat_keepC_iff db base i _

theorem fccCount_delC {db : DB} {base : Option (List (Option Nat))}
    {fixups : List FixupVer} (ha : FixupsAligned db fixups) :
    fccCount db base fixups FCat.delC = countDeleted db base fixups db.files.length := by
  rw [fccCount, fccWalk_eq_map ha, List.countP_map, countDeleted]
  apply List.countP_congr
  intro i _
  simp only [Function.comp_apply, decide_eq_true_eq]
  exact fccCat_delC_iff db base i _

theorem fccCount_addC {db : DB} {base : Option (List (Option Nat))}
    {fixups : List FixupVer} (ha : FixupsAligned db fixups) :
    fccCount db base fixups FCat.addC = countAdded db base fixups db.files.length := by
  rw [fccCount, fccWalk_eq_map ha, List.countP_map, countAdded]
  apply List.countP_congr
  intro i _
  simp only [Function.comp_apply, decide_eq_true_eq]
  exact fccCat_addC_iff db base i _

theorem fccCount_modC {db : DB} {base : Option (List (Option Nat))}
    {fixups : List FixupVer} (ha : FixupsAligned db fixups) :
    fccCount db base fixups FCat.modC = countModified db base fixups db.files.length := by
  rw [fccCount, fccWalk_eq_map ha, List.countP_map, countModified]
  apply List.countP_congr
  intro i _
  simp only [Function.comp_apply, decide_eq_true_eq]
  exact fccCat_modC_iff db base i _

/-- C4 (amended): whenever `fixup_commit_comment` produces a log, its first
line is `Fix-up commit generated by crap-clone.  (~M +A -D =K)` with the
modified/added/deleted/kept counts, followed per file (in file order) by a
`<path> <old-version-or-ADD>-><new-version-or-DELETE>` line for each file
that changes state — except that a deletion line is omitted when deletions
outnumber kept files — and by a `<path> KEEP <version>` line for each kept
file when the kept count is at most the deleted count. -/
theorem fixup_commit_comment_spec {db : DB} {base : Option (List (Option Nat))}
    {fixups : List FixupVer} {lines : List String}
    (ha : FixupsAligned db fixups)
    (h : fixup_commit_comment db base fixups = some lines) :
    lines = headerLine (countModified db base fixups db.files.length)
        (countAdded db base fixups db.files.length)
        (countDeleted db base fixups db.files.length)
        (countKept db base fixups db.files.length) ::
      (List.range db.files.length).filterMap
        (claimFixupLine db base fixups (countKept db base fixups db.files.length)
          (countDeleted db base fixups db.files.length)) := by
  unfold fixup_commit_comment at h
  split at h
  case isFalse => exact absurd h (by simp)
  case isTrue hsum =>
    injection h with h
    subst h
    rw [fccCount_keepC ha, fccCount_delC ha, fccCount_addC ha, fccCount_modC ha]
    congr 1
    rw [fccWalk_eq_map ha]
    simp only [List.reduceOption, List.filterMap_map]
    rfl

/-- C4 witness: the log shape instantiated on a one-entry modification
fixup. -/
theorem fixup_commit_comment_spec_witness :
    FixupsAligned dbTagA [{ file := 0, version := some 2, ftime := 10 }] ∧
    fixup_commit_comment dbTagA (some baseTagA)
        [{ file := 0, version := some 2, ftime := 10 }] =
      some ["Fix-up commit generated by crap-clone.  (~1 +0 -0 =1)",
            "f0 1.1->1.3"] ∧
    ["Fix-up commit generated by crap-clone.  (~1 +0 -0 =1)", "f0 1.1->1.3"] =
      headerLine
        (countModified dbTagA (some baseTagA)
          [{ file := 0, version := some 2, ftime := 10 }] dbTagA.files.length)
        (countAdded dbTagA (some baseTagA)
          [{ file := 0, version := some 2, ftime := 10 }] dbTagA.files.length)
        (countDeleted dbTagA (some baseTagA)
          [{ file := 0, version := some 2, ftime := 10 }] dbTagA.files.length)
        (countKept dbTagA (some baseTagA)
          [{ file := 0, version := some 2, ftime := 10 }] dbTagA.files.length) ::
      (List.range dbTagA.files.length).filterMap
        (claimFixupLine dbTagA (some baseTagA)
          [{ file := 0, version := some 2, ftime := 10 }]
          (countKept dbTagA (some baseTagA)
            [{ file := 0, version := some 2, ftime := 10 }] dbTagA.files.length)
          (countDeleted dbTagA (some baseTagA)
            [{ file := 0, version := some 2, ftime := 10 }] dbTagA.files.length)) :=
  ⟨⟨by decide, by decide⟩, by decide,
    fixup_commit_comment_spec ⟨by decide, by decide⟩ (by decide)⟩

/-- C4 counterexample: a pure deletion fixup (deleted = 1 > kept = 0)
produces a log consisting of the header line only — the claimed
`<path> <old>->DELETE` line for the changed file is not emitted, so the
claim is false as stated. -/
theorem fixup_commit_comment_deletion_suppressed :
    ¬ version_live dbDeadTgt (baseAt (some [some 0]) 0) =
      fccTargetAt dbDeadTgt (some [some 0]) [{ file := 0, version := none, ftime := 5 }] 0 ∧
    fixup_commit_comment dbDeadTgt (some [some 0])
        [{ file := 0, version := none, ftime := 5 }] =
      some ["Fix-up commit generated by crap-clone.  (~0 +0 -1 =0)"] :=
  ⟨by decide, by decide⟩

/-- When no pending fixup is due before the cutoff, `print_fixups` does
nothing. -/
theorem print_fixups_empty {db : DB} {server : Server} {st : St}
    {base : Option (List (Option Nat))} {t : Nat} {cutoff : Option Time}
    (h : (fixup_list (st.fixupsRem.getD t []) cutoff).1 = []) :
    print_fixups db server st base t cutoff = some st := by
  unfold print_fixups
  simp only [h]

/-- C5 (amended): a commit changeset that changes something (relative to the
branch tips after any pending fix-ups; here the pending list is empty) emits
blob records followed by exactly one commit record on
`refs/heads/<branch-or-default>` carrying a fresh mark (the final counter
value), the author, the changeset time, the log, and one `M
<mode> :<blob-mark> <path>`-or-`D <path>` line per *used* version of the
changeset — including used versions that do not change the branch tip — in
changeset order; the changeset's mark and the branch's `last` pointer are
updated. -/
theorem print_commit_emits {db : DB} {server : Server} {st : St} {c : Nat} {st' : St}
    {v0 : Nat} {vs : List Nat} {b : Nat} {bvs : List (Option Nat)}
    (hv : (getCs db c).versions = v0 :: vs)
    (hb : (getV db v0).branch = some b)
    (hbvs : st.branchVersions.getD b none = some bvs)
    (hdue : (fixup_list (st.fixupsRem.getD b []) (some (getCs db c).ctime)).1 = [])
    (hcl : c < st.csMark.length)
    (hbl : b < st.lastCs.length)
    (hw : WfSt db st)
    (hnnil : ¬ ((((getCs db c).versions.filter (fun v => (getV db v).used)).all
        (fun v => version_live db (some v) =
          version_live db (bvs.getD (getV db v).file none))) = true))
    (h : print_commit db server st c = some st') :
    ∃ d, st'.out = st.out ++ d ∧ d ≠ [] ∧
      (∀ r ∈ d.dropLast, isBlob r = true) ∧
      d.getLast? = some (Record.commit true (effName (getTag db b).tag) st'.counter
        (getV db v0).author (getCs db c).ctime (getV db v0).log
        (((getCs db c).versions.filter (fun v => (getV db v).used)).map
          (usedActionSpec db st'))) ∧
      st'.csMark.getD c 0 = st'.counter ∧
      st'.lastCs.getD b none = some (CsId.commit c) ∧
      st.counter < st'.counter := by
  rw [hv] at hnnil
  unfold print_commit at h
  simp only [hv, hb, hbvs, print_fixups_empty hdue] at h
  rw [if_neg hnnil] at h
  split at h
  case h_1 heq => exact absurd h (by simp)
  case h_2 st2 heq =>
    have g := grab_versions_gv hw heq
    injection h with h
    obtain ⟨gd, hgo, hgb⟩ := g.app
    have hmark : (st2.csMark.set c (st2.counter + 1)).getD c 0 = st2.counter + 1 := by
      apply getD_set_self
      rw [g.csm]
      exact hcl
    refine ⟨gd ++ [Record.commit true (effName (getTag db b).tag) (st2.counter + 1)
        (getV db v0).author (getCs db c).ctime (getV db v0).log
        (((getCs db c).versions.filter (fun v => (getV db v).used)).map
          (usedActionSpec db st'))], ?_, by simp, ?_, ?_, ?_, ?_, ?_⟩
    · rw [← h]
      show st2.out ++ [_] = st.out ++ (gd ++ [_])
      rw [hgo, List.append_assoc, hmark, hv]
      rfl
    · rw [List.dropLast_concat]
      exact hgb
    · rw [List.getLast?_concat, ← h, hv]
    · rw [← h]
      show (st2.csMark.set c (st2.counter + 1)).getD c 0 = st2.counter + 1
      exact hmark
    · rw [← h]
      show (st2.lastCs.set b (some (CsId.commit c))).getD b none = some (CsId.commit c)
      apply getD_set_self
      rw [g.lst]
      exact hbl
    · rw [← h]
      show st.counter < st2.counter + 1
      exact Nat.lt_succ_of_le g.ctr

/-- C5 witness: the emission shape instantiated on a one-file commit. -/
theorem print_commit_emits_witness :
    (getCs dbCommit 0).versions = 0 :: [] ∧
    print_commit dbCommit srvSingles stCommit 0 = some stCommitRes ∧
    (∃ d, stCommitRes.out = stCommit.out ++ d ∧ d ≠ [] ∧
      (∀ r ∈ d.dropLast, isBlob r = true) ∧
      d.getLast? = some (Record.commit true (effName (getTag dbCommit 0).tag)
        stCommitRes.counter (getV dbCommit 0).author (getCs dbCommit 0).ctime
        (getV dbCommit 0).log
        (((getCs dbCommit 0).versions.filter (fun v => (getV dbCommit v).used)).map
          (usedActionSpec dbCommit stCommitRes))) ∧
      stCommitRes.csMark.getD 0 0 = stCommitRes.counter ∧
      stCommitRes.lastCs.getD 0 none = some (CsId.commit 0) ∧
      stCommit.counter < stCommitRes.counter) :=
  ⟨by decide, by decide,
    @print_commit_emits dbCommit srvSingles stCommit 0 stCommitRes 0 [] 0 [none]
      (by decide) (by decide) (by decide) (by decide) (by decide) (by decide)
      (by decide : dbCommit.versions.length ≤ stCommit.marks.length)
      (by decide) (by decide)⟩

/-- C5 counterexample: version 0 of the changeset is not a delta (its live
value, null, equals the branch tip's live value), yet the emitted commit
record carries a `D f0` line for it — the code emits one line per used
version, not one line per delta version, so the claim is false as stated. -/
theorem print_commit_nondelta_line :
    version_live dbExtra (some 0) =
      version_live dbExtra (((stExtra.branchVersions.getD 0 none).getD []).getD 0 none) ∧
    print_commit dbExtra srvSingles stExtra 0 = some stExtraRes ∧
    stExtraRes.out.getLast? = some (Record.commit true "cvs_master" 2 "u" 5 "l"
      [Action.D "f0", Action.M "644" (some 1) "f1"]) :=
  ⟨by decide, by decide, by decide⟩

/-- C6 (amended): a commit changeset all of whose used versions' live values
equal the branch's current tips is a no-op: apart from the flush of pending
fix-ups performed on entry (here the pending list is empty), `print_commit`
emits no output record, issues no request, assigns the changeset the
branch's last changeset's mark, points the branch's `last` at this
changeset, and modifies nothing else. -/
theorem print_commit_noop {db : DB} {server : Server} {st : St} {c : Nat} {st' : St}
    {v0 : Nat} {vs : List Nat} {b : Nat} {bvs : List (Option Nat)} {l : CsId}
    (hv : (getCs db c).versions = v0 :: vs)
    (hb : (getV db v0).branch = some b)
    (hbvs : st.branchVersions.getD b none = some bvs)
    (hdue : (fixup_list (st.fixupsRem.getD b []) (some (getCs db c).ctime)).1 = [])
    (hl : st.lastCs.getD b none = some l)
    (hnil : (((getCs db c).versions.filter (fun v => (getV db v).used)).all
        (fun v => version_live db (some v) =
          version_live db (bvs.getD (getV db v).file none))) = true)
    (h : print_commit db server st c = some st') :
    st' = { st with csMark := st.csMark.set c (csMarkOf st l),
                    lastCs := st.lastCs.set b (some (CsId.commit c)) } ∧
    st'.out = st.out ∧ st'.reqs = st.reqs ∧ st'.marks = st.marks ∧
    st'.counter = st.counter ∧ st'.branchVersions = st.branchVersions ∧
    st'.fixupsRem = st.fixupsRem := by
  rw [hv] at hnil
  unfold print_commit at h
  simp only [hv, hb, hbvs, print_fixups_empty hdue] at h
  rw [if_pos hnil] at h
  simp only [hl] at h
  injection h with h
  subst h
  exact ⟨rfl, rfl, rfl, rfl, rfl, rfl, rfl⟩

/-- C6 witness: the no-op frame property instantiated on a tip-preserving
changeset. -/
theorem print_commit_noop_witness :
    print_commit dbCommit srvSingles stNil 0 = some stNilRes ∧
    (stNilRes = { stNil with csMark := stNil.csMark.set 0 (csMarkOf stNil (CsId.tagCs 0)),
                             lastCs := stNil.lastCs.set 0 (some (CsId.commit 0)) } ∧
     stNilRes.out = stNil.out ∧ stNilRes.reqs = stNil.reqs ∧
     stNilRes.marks = stNil.marks ∧ stNilRes.counter = stNil.counter ∧
     stNilRes.branchVersions = stNil.branchVersions ∧
     stNilRes.fixupsRem = stNil.fixupsRem) :=
  ⟨by decide,
    @print_commit_noop dbCommit srvSingles stNil 0 stNilRes 0 [] 0 [some 0]
      (CsId.tagCs 0) (by decide) (by decide) (by decide) (by decide) (by decide)
      (by decide) (by decide)⟩

/-- C6 counterexample: a no-op changeset (its used version's live value
already equals the branch tip) still makes `print_commit` emit output and
issue a fetch, because the branch's pending fix-up is flushed on entry — so
the claim that a no-op `print_commit` emits no output record and issues no
fetch is false as stated. -/
theorem print_commit_noop_emits_fixup :
    (((getCs dbNoop 0).versions.filter (fun v => (getV dbNoop v).used)).all
      (fun v => version_live dbNoop (some v) =
        version_live dbNoop
          (((stNoop.branchVersions.getD 0 none).getD []).getD (getV dbNoop v).file none))) = true ∧
    print_commit dbNoop srvSingles stNoop 0 = some stNoopRes ∧
    ¬ stNoopRes.out = stNoop.out ∧ ¬ stNoopRes.reqs = stNoop.reqs ∧
    ¬ stNoopRes.counter = stNoop.counter :=
  ⟨by decide, by decide, by decide, by decide, by decide⟩

/-- The fix-up committer time equals the claim's reading of it on any state
whose branch arrays and `last` pointers agree with `st`, provided the tag's
`last` pointer can only name the tag's own synthetic changeset. -/
theorem fixupTime_eq_claim {db : DB} {st stX : St} {t : Nat}
    (hbv : stX.branchVersions = st.branchVersions)
    (hls : stX.lastCs = st.lastCs)
    (hlast : ∀ j, st.lastCs.getD t none = some (CsId.tagCs j) → j = t) :
    fixupTime db stX t = claimFixupTime db st t := by
  unfold fixupTime claimFixupTime
  rw [hbv, hls]
  by_cases hbr : (st.branchVersions.getD t none).isSome
  · rw [if_pos hbr, if_pos hbr]
    rcases hl : st.lastCs.getD t none with _ | l
    · rfl
    · rcases l with i | j
      · rfl
      · have hj := hlast j hl
        subst hj
        rfl
  · rw [if_neg hbr, if_neg hbr]

/-- C9: every fix-up commit record carries the fixed synthetic committer
identity `crap`, and its timestamp is the time of the branch's most recently
emitted changeset when the tag is a branch that already has commits, and the
tag's own changeset time otherwise. -/
theorem print_fixups_committer {db : DB} {server : Server} {st : St}
    {base : Option (List (Option Nat))} {t : Nat} {cutoff : Option Time} {st' : St}
    (hw : WfSt db st)
    (hlast : ∀ j, st.lastCs.getD t none = some (CsId.tagCs j) → j = t)
    (hne : ¬ (fixup_list (st.fixupsRem.getD t []) cutoff).1 = [])
    (h : print_fixups db server st base t cutoff = some st') :
    ∃ m lg acts, st'.out.getLast? =
      some (Record.commit ((st.branchVersions.getD t none).isSome)
        (effName (getTag db t).tag) m "crap" (claimFixupTime db st t) lg acts) := by
  simp only [print_fixups] at h
  split at h
  case h_1 heq => exact absurd heq hne
  case h_2 hd tl heq =>
    split at h
    case h_1 heq2 => exact absurd h (by simp)
    case h_2 st1 heq2 =>
      have hw2 : WfSt db { st with
          fixupsRem := st.fixupsRem.set t (fixup_list (st.fixupsRem.getD t []) cutoff).2 } := hw
      have g := grab_versions_gv hw2 heq2
      split at h
      case h_1 => exact absurd h (by simp)
      case h_2 lines hcm =>
        split at h
        case h_1 => exact absurd h (by simp)
        case h_2 acts hact =>
          injection h with h
          have hbv : st1.branchVersions = st.branchVersions := g.bvs
          have hls : st1.lastCs = st.lastCs := g.lst
          have hout := congrArg St.out h
          dsimp only at hout
          have hgl := congrArg List.getLast? hout
          rw [List.getLast?_concat] at hgl
          rw [@fixupTime_eq_claim db st { st1 with
              fixupFlag := st1.fixupFlag.set t true,
              counter := st1.counter + 1,
              tagCsMark := st1.tagCsMark.set t (st1.counter + 1) } t hbv hls hlast] at hgl
          rw [hbv] at hgl
          exact ⟨_, _, _, hgl.symm⟩

/-- C9 witness: the committer identity and timestamp instantiated on a
branch fix-up flush. -/
theorem print_fixups_committer_witness :
    ¬ (fixup_list (stFix.fixupsRem.getD 0 []) none).1 = [] ∧
    print_fixups dbCommit srvSingles stFix (some [none]) 0 none = some stFixRes ∧
    (∃ m lg acts, stFixRes.out.getLast? =
      some (Record.commit ((stFix.branchVersions.getD 0 none).isSome)
        (effName (getTag dbCommit 0).tag) m "crap" (claimFixupTime dbCommit stFix 0)
        lg acts)) :=
  ⟨by decide, by decide,
    @print_fixups_committer dbCommit srvSingles stFix (some [none]) 0 none stFixRes
      (by decide : dbCommit.versions.length ≤ stFix.marks.length)
      (by intro j hj; simp [stFix] at hj; omega) (by decide) (by decide)⟩

/-- C10: the fix-ups `create_fixups` computes for the tag `v1` of `dbTagA`
are sorted by time, which puts the deletion of `f1` (time `TIME_MIN`) before
the modification of `f0` (time 10) and so breaks the file-ordered walk of
`fixup_commit_comment`: the walk pairs no fixup entry with `f0`, counts one
change instead of two, and the assertion
`added + deleted + modified == fixups_end - fixups` fails (modelled as
`none`), aborting `print_tag` on this reachable input. -/
theorem fixup_assert_fails :
    create_fixups dbTagA (some baseTagA) [2] =
      [{ file := 1, version := none, ftime := timeMin },
       { file := 0, version := some 2, ftime := 10 }] ∧
    fixup_commit_comment dbTagA (some baseTagA)
      [{ file := 1, version := none, ftime := timeMin },
       { file := 0, version := some 2, ftime := 10 }] = none ∧
    print_tag dbTagA srvSingles stTagA 1 = none :=
  ⟨by decide, by decide, by decide⟩

/-- `print_fixups` either does nothing or sets the tag's `fixup` flag and
appends to the output. -/
theorem print_fixups_shape {db : DB} {server : Server} {st : St}
    {base : Option (List (Option Nat))} {t : Nat} {cutoff : Option Time} {st' : St}
    (hw : WfSt db st) (hfl : t < st.fixupFlag.length)
    (h : print_fixups db server st base t cutoff = some st') :
    st' = st ∨ (st'.fixupFlag.getD t false = true ∧ ∃ d, st'.out = st.out ++ d) := by
  simp only [print_fixups] at h
  split at h
  case h_1 heq =>
    injection h with h
    exact Or.inl h.symm
  case h_2 hd tl heq =>
    split at h
    case h_1 => exact absurd h (by simp)
    case h_2 st1 heq2 =>
      have hw2 : WfSt db { st with
          fixupsRem := st.fixupsRem.set t (fixup_list (st.fixupsRem.getD t []) cutoff).2 } := hw
      have g := grab_versions_gv hw2 heq2
      split at h
      case h_1 => exact absurd h (by simp)
      case h_2 lines hcm =>
        split at h
        case h_1 => exact absurd h (by simp)
        case h_2 acts hact =>
          injection h with h
          right
          constructor
          · have hffl := congrArg St.fixupFlag h
            dsimp only at hffl
            rw [← hffl]
            apply getD_set_self
            have hfe : st1.fixupFlag = st.fixupFlag := g.ffl
            rw [hfe]
            exact hfl
          · obtain ⟨gd, hgo, _⟩ := g.app
            dsimp only at hgo
            have hout := congrArg St.out h
            dsimp only at hout
            rw [hgo, List.append_assoc] at hout
            exact ⟨_, hout.symm⟩

theorem resetRecords_eq (db : DB) (st : St) (t : Nat) :
    resetRecords db st t =
    [Record.reset ((st.branchVersions.getD t none).isSome) (effName (getTag db t).tag)] ++
    (if tagParentMark db st t = 0 then []
     else [Record.fromMark (tagParentMark db st t)]) := by
  unfold resetRecords
  by_cases h : tagParentMark db st t = 0
  · simp [h]
  · simp [h]

/-- C8: `print_tag` writes `reset refs/heads/<name>` when the tag is a
branch and `reset refs/tags/<name>` otherwise (with the default name for the
empty trunk name), sets the tag changeset's mark to its parent changeset's
mark — 0 when it has no parent — and writes a `from :M` line exactly when
that mark is nonzero; the mark can only change again within the call when a
non-branch tag's fix-up flush emits a commit, which then also sets the tag's
`fixup` flag. -/
theorem print_tag_reset {db : DB} {server : Server} {st : St} {t : Nat} {st' : St}
    (hw : WfSt db st)
    (ht : t < st.tagCsMark.length)
    (hfl : t < st.fixupFlag.length)
    (h : print_tag db server st t = some st') :
    (∃ d, st'.out = st.out ++
        [Record.reset ((st.branchVersions.getD t none).isSome)
          (effName (getTag db t).tag)] ++
        (if tagParentMark db st t = 0 then []
         else [Record.fromMark (tagParentMark db st t)]) ++ d) ∧
    ((st.branchVersions.getD t none).isSome = true →
      st'.tagCsMark.getD t 0 = tagParentMark db st t) ∧
    ((st.branchVersions.getD t none).isSome = false →
      st'.tagCsMark.getD t 0 = tagParentMark db st t ∨
        st'.fixupFlag.getD t false = true) := by
  unfold print_tag at h
  split at h
  case isFalse => exact absurd h (by simp)
  case isTrue hg =>
    split at h
    case h_1 arr harr =>
      injection h with h
      refine ⟨⟨[], ?_⟩, fun _ => ?_, fun hbr => ?_⟩
      · rw [← h]
        show st.out ++ resetRecords db st t = _
        simp [resetRecords_eq, List.append_assoc]
      · rw [← h]
        show (st.tagCsMark.set t (tagParentMark db st t)).getD t 0 = _
        exact getD_set_self _ _ _ _ ht
      · rw [harr] at hbr
        exact absurd hbr (by simp)
    case h_2 harr =>
      have hw5 : WfSt db { st with
          out := st.out ++ resetRecords db st t,
          tagCsMark := st.tagCsMark.set t (tagParentMark db st t),
          lastCs := st.lastCs.set t (some (CsId.tagCs t)),
          fixupsRem := st.fixupsRem.set t
            (create_fixups db (tagParentBvs db st t) (getTag db t).tagFiles) } := hw
      have hfl5 : t < ({ st with
          out := st.out ++ resetRecords db st t,
          tagCsMark := st.tagCsMark.set t (tagParentMark db st t),
          lastCs := st.lastCs.set t (some (CsId.tagCs t)),
          fixupsRem := st.fixupsRem.set t
            (create_fixups db (tagParentBvs db st t) (getTag db t).tagFiles) } : St).fixupFlag.length := hfl
      rcases print_fixups_shape hw5 hfl5 h with he | ⟨hfg, d2, hd2⟩
      · refine ⟨⟨[], ?_⟩, fun hbr => ?_, fun _ => Or.inl ?_⟩
        · rw [he]
          show st.out ++ resetRecords db st t = _
          simp [resetRecords_eq, List.append_assoc]
        · rw [harr] at hbr
          exact absurd hbr (by simp)
        · rw [he]
          show (st.tagCsMark.set t (tagParentMark db st t)).getD t 0 = _
          exact getD_set_self _ _ _ _ ht
      · refine ⟨⟨d2, ?_⟩, fun hbr => ?_, fun _ => Or.inr hfg⟩
        · rw [hd2]
          show st.out ++ resetRecords db st t ++ d2 = _
          simp [resetRecords_eq, List.append_assoc]
        · rw [harr] at hbr
          exact absurd hbr (by simp)

/-- C8 witness: the reset shape instantiated on the root trunk branch. -/
theorem print_tag_reset_witness :
    print_tag dbCommit srvSingles stCommit 0 = some
      ((print_tag dbCommit srvSingles stCommit 0).getD stCommit) ∧
    ((∃ d, ((print_tag dbCommit srvSingles stCommit 0).getD stCommit).out =
        stCommit.out ++
        [Record.reset ((stCommit.branchVersions.getD 0 none).isSome)
          (effName (getTag dbCommit 0).tag)] ++
        (if tagParentMark dbCommit stCommit 0 = 0 then []
         else [Record.fromMark (tagParentMark dbCommit stCommit 0)]) ++ d) ∧
     ((stCommit.branchVersions.getD 0 none).isSome = true →
       ((print_tag dbCommit srvSingles stCommit 0).getD stCommit).tagCsMark.getD 0 0 =
         tagParentMark dbCommit stCommit 0) ∧
     ((stCommit.branchVersions.getD 0 none).isSome = false →
       ((print_tag dbCommit srvSingles stCommit 0).getD stCommit).tagCsMark.getD 0 0 =
         tagParentMark dbCommit stCommit 0 ∨
       ((print_tag dbCommit srvSingles stCommit 0).getD stCommit).fixupFlag.getD 0 false = true)) :=
  ⟨by decide,
    @print_tag_reset dbCommit srvSingles stCommit 0
      ((print_tag dbCommit srvSingles stCommit 0).getD stCommit)
      (by decide : dbCommit.versions.length ≤ stCommit.marks.length)
      (by decide) (by decide) (by decide)⟩

/-! ### The emitter operations and the mark discipline. -/

theorem SOK_refl (st : St) : SOK st st :=
  ⟨le_refl _, fun _ _ h => h, ⟨[], by simp⟩, id, rfl, rfl, rfl⟩

theorem SOK_trans {s1 s2 s3 : St} (a : SOK s1 s2) (b : SOK s2 s3) : SOK s1 s3 := by
  obtain ⟨d1, h1⟩ := a.app
  obtain ⟨d2, h2⟩ := b.app
  exact ⟨le_trans a.ctr b.ctr, fun v m h => b.mono v m (a.mono v m h),
    ⟨d1 ++ d2, by rw [h2, h1, List.append_assoc]⟩,
    fun h => b.inv (a.inv h), b.mln.trans a.mln, b.tln.trans a.tln,
    b.cln.trans a.cln⟩

theorem SOK_of_gv {s1 s2 : St} (g : GV s1 s2) : SOK s1 s2 := by
  obtain ⟨d, hd, _⟩ := g.app
  exact ⟨g.ctr, g.mono, ⟨d, hd⟩, g.inv, g.mln, by rw [g.tcm], by rw [g.csm]⟩

/-- Appending records that define no mark preserves the mark invariant as
long as the counter does not decrease. -/
theorem MarksInv_skipList {st st' : St} (rs : List Record) (h : MarksInv st)
    (hout : st'.out = st.out ++ rs) (hctr : st.counter ≤ st'.counter)
    (hr : ∀ r ∈ rs, recDefMark r = none) : MarksInv st' := by
  obtain ⟨hch, hbd⟩ := h
  have hdm : defMarks st'.out = defMarks st.out := by
    rw [hout]
    unfold defMarks
    rw [List.filterMap_append, List.filterMap_eq_nil_iff.mpr hr]
    simp
  rw [MarksInv, hdm]
  refine ⟨hch, fun m hm => ?_⟩
  rcases hbd m hm with ⟨hp, hle⟩
  exact ⟨hp, le_trans hle hctr⟩

/-- The reset-phase records define no mark. -/
theorem resetRecords_defMark (db : DB) (st : St) (t : Nat) :
    ∀ r ∈ resetRecords db st t, recDefMark r = none := by
  intro r hr
  rw [resetRecords_eq] at hr
  rcases List.mem_append.mp hr with h | h
  · simp only [List.mem_singleton] at h
    subst h
    rfl
  · split at h
    · exact absurd h (by simp)
    · simp only [List.mem_singleton] at h
      subst h
      rfl

/-- `print_fixups` satisfies the emitter transition bundle and leaves the
commit-changeset marks untouched. -/
theorem print_fixups_sok {db : DB} {server : Server} {st : St}
    {base : Option (List (Option Nat))} {t : Nat} {cutoff : Option Time} {st' : St}
    (hw : WfSt db st) (ht : t < st.tagCsMark.length)
    (h : print_fixups db server st base t cutoff = some st') :
    SOK st st' ∧ st'.csMark = st.csMark := by
  simp only [print_fixups] at h
  split at h
  case h_1 heq =>
    injection h with h
    subst h
    exact ⟨SOK_refl st, rfl⟩
  case h_2 hd tl heq =>
    split at h
    case h_1 => exact absurd h (by simp)
    case h_2 st1 heq2 =>
      have hw2 : WfSt db { st with
          fixupsRem := st.fixupsRem.set t (fixup_list (st.fixupsRem.getD t []) cutoff).2 } := hw
      have g := grab_versions_gv hw2 heq2
      split at h
      case h_1 => exact absurd h (by simp)
      case h_2 lines hcm =>
        split at h
        case h_1 => exact absurd h (by simp)
        case h_2 acts hact =>
          injection h with h
          subst h
          have hlen : t < st1.tagCsMark.length := by
            rw [g.tcm]
            exact ht
          have s0 : SOK st { st with
              fixupsRem := st.fixupsRem.set t (fixup_list (st.fixupsRem.getD t []) cutoff).2 } :=
            ⟨le_refl _, fun _ _ hm => hm, ⟨[], (List.append_nil _).symm⟩,
              fun hi => MarksInv_keep hi rfl (le_refl _), rfl, rfl, rfl⟩
          refine ⟨SOK_trans (SOK_trans s0 (SOK_of_gv g))
            ⟨Nat.le_succ _, fun _ _ hm => hm, ⟨_, rfl⟩, fun hi => ?_, rfl, ?_, rfl⟩,
            g.csm⟩
          · refine MarksInv_snoc _ hi rfl rfl ?_
            show some ((st1.tagCsMark.set t (st1.counter + 1)).getD t 0) =
              some (st1.counter + 1)
            rw [getD_set_self _ _ _ _ hlen]
          · show (st1.tagCsMark.set t (st1.counter + 1)).length = st1.tagCsMark.length
            exact List.length_set _ _ _

/-- `print_tag` satisfies the emitter transition bundle and leaves the
commit-changeset marks untouched. -/
theorem print_tag_sok {db : DB} {server : Server} {st : St} {t : Nat} {st' : St}
    (hw : WfSt db st) (ht : t < st.tagCsMark.length)
    (h : print_tag db server st t = some st') :
    SOK st st' ∧ st'.csMark = st.csMark := by
  unfold print_tag at h
  split at h
  case isFalse => exact absurd h (by simp)
  case isTrue hg =>
    split at h
    case h_1 arr harr =>
      injection h with h
      subst h
      refine ⟨⟨le_refl _, fun _ _ hm => hm, ⟨resetRecords db st t, rfl⟩,
        fun hi => MarksInv_skipList _ hi rfl (le_refl _) (resetRecords_defMark db st t),
        rfl, ?_, rfl⟩, rfl⟩
      show (st.tagCsMark.set t (tagParentMark db st t)).length = st.tagCsMark.length
      exact List.length_set _ _ _
    case h_2 harr =>
      have hw5 : WfSt db { st with
          out := st.out ++ resetRecords db st t,
          tagCsMark := st.tagCsMark.set t (tagParentMark db st t),
          lastCs := st.lastCs.set t (some (CsId.tagCs t)),
          fixupsRem := st.fixupsRem.set t
            (create_fixups db (tagParentBvs db st t) (getTag db t).tagFiles) } := hw
      have ht5 : t < ({ st with
          out := st.out ++ resetRecords db st t,
          tagCsMark := st.tagCsMark.set t (tagParentMark db st t),
          lastCs := st.lastCs.set t (some (CsId.tagCs t)),
          fixupsRem := st.fixupsRem.set t
            (create_fixups db (tagParentBvs db st t) (getTag db t).tagFiles) } : St).tagCsMark.length := by
        show t < (st.tagCsMark.set t (tagParentMark db st t)).length
        rw [List.length_set]
        exact ht
      obtain ⟨sokf, hcs5⟩ := print_fixups_sok hw5 ht5 h
      have s0 : SOK st { st with
          out := st.out ++ resetRecords db st t,
          tagCsMark := st.tagCsMark.set t (tagParentMark db st t),
          lastCs := st.lastCs.set t (some (CsId.tagCs t)),
          fixupsRem := st.fixupsRem.set t
            (create_fixups db (tagParentBvs db st t) (getTag db t).tagFiles) } := by
        refine ⟨le_refl _, fun _ _ hm => hm, ⟨resetRecords db st t, rfl⟩,
          fun hi => MarksInv_skipList _ hi rfl (le_refl _) (resetRecords_defMark db st t),
          rfl, ?_, rfl⟩
        show (st.tagCsMark.set t (tagParentMark db st t)).length = st.tagCsMark.length
        exact List.length_set _ _ _
      exact ⟨SOK_trans s0 sokf, hcs5⟩

/-- `print_commit` satisfies the emitter transition bundle and changes no
commit-changeset mark other than its own changeset's. -/
theorem print_commit_sok {db : DB} {server : Server} {st : St} {c : Nat} {st' : St}
    (hdb : WfDB db) (hwa : WfAll db st)
    (h : print_commit db server st c = some st') :
    SOK st st' ∧ ∀ j, j ≠ c → st'.csMark.getD j 0 = st.csMark.getD j 0 := by
  simp only [print_commit] at h
  split at h
  case h_1 => exact absurd h (by simp)
  case h_2 v0 vs heqv =>
    split at h
    case h_1 => exact absurd h (by simp)
    case h_2 b hb =>
      split at h
      case h_1 => exact absurd h (by simp)
      case h_2 bvs0 hbv0 =>
        split at h
        case h_1 => exact absurd h (by simp)
        case h_2 st1 hpf =>
          have hc : c < db.changesets.length := by
            by_contra hcn
            have hdef : (getCs db c).versions = [] := by
              show (db.changesets.getD c default).versions = []
              rw [List.getD_eq_getElem?_getD, List.getElem?_eq_none (le_of_not_lt hcn)]
              rfl
            rw [hdef] at heqv
            exact absurd heqv (by simp)
          have hmem : getCs db c ∈ db.changesets := by
            show db.changesets.getD c default ∈ db.changesets
            rw [List.getD_eq_getElem?_getD, List.getElem?_eq_getElem hc]
            exact List.getElem_mem hc
          have hv0 : v0 < db.versions.length :=
            hdb.2 (getCs db c) hmem v0 (by rw [heqv]; exact List.mem_cons_self v0 vs)
          have hvmem : getV db v0 ∈ db.versions := by
            show db.versions.getD v0 default ∈ db.versions
            rw [List.getD_eq_getElem?_getD, List.getElem?_eq_getElem hv0]
            exact List.getElem_mem hv0
          have hbt : b < db.tags.length := by
            have h1 := hdb.1 (getV db v0) hvmem
            rw [hb] at h1
            exact of_decide_eq_true h1
          have ht : b < st.tagCsMark.length := lt_of_lt_of_le hbt hwa.2.1
          obtain ⟨sokf, hcsf⟩ := print_fixups_sok hwa.1 ht hpf
          split at h
          case h_1 => exact absurd h (by simp)
          case h_2 bvs hbvs =>
            split at h
            case isTrue hnil =>
              split at h
              case h_1 => exact absurd h (by simp)
              case h_2 l hl =>
                injection h with h
                subst h
                refine ⟨SOK_trans sokf
                  ⟨le_refl _, fun _ _ hm => hm, ⟨[], (List.append_nil _).symm⟩,
                    fun hi => MarksInv_keep hi rfl (le_refl _), rfl, rfl, ?_⟩,
                  fun j hj => ?_⟩
                · show (st1.csMark.set c (csMarkOf st1 l)).length = st1.csMark.length
                  exact List.length_set _ _ _
                · show (st1.csMark.set c (csMarkOf st1 l)).getD j 0 = st.csMark.getD j 0
                  rw [getD_set_ne _ c j _ _ (fun he => hj he.symm), hcsf]
            case isFalse hnil =>
              split at h
              case h_1 => exact absurd h (by simp)
              case h_2 st2 hg =>
                have hw1 : WfSt db st1 := by
                  show db.versions.length ≤ st1.marks.length
                  rw [sokf.mln]
                  exact hwa.1
                have g := grab_versions_gv hw1 hg
                injection h with h
                subst h
                have hcl2 : c < st2.csMark.length := by
                  rw [g.csm, hcsf]
                  exact lt_of_lt_of_le hc hwa.2.2
                refine ⟨SOK_trans sokf (SOK_trans (SOK_of_gv g)
                  ⟨Nat.le_succ _, fun _ _ hm => hm, ⟨_, rfl⟩, fun hi => ?_, rfl, rfl, ?_⟩),
                  fun j hj => ?_⟩
                · refine MarksInv_snoc _ hi rfl rfl ?_
                  show some ((st2.csMark.set c (st2.counter + 1)).getD c 0) =
                    some (st2.counter + 1)
                  rw [getD_set_self _ _ _ _ hcl2]
                · show (st2.csMark.set c (st2.counter + 1)).length = st2.csMark.length
                  exact List.length_set _ _ _
                · show (st2.csMark.set c (st2.counter + 1)).getD j 0 = st.csMark.getD j 0
                  rw [getD_set_ne _ c j _ _ (fun he => hj he.symm), g.csm, hcsf]

/-- Every emitter operation satisfies the transition bundle and preserves
every already positive commit-changeset mark. -/
theorem Step_sok {db : DB} {server : Server} {st st' : St}
    (hdb : WfDB db) (hwa : WfAll db st) (h : Step db server st st') :
    SOK st st' ∧ ∀ j m, 0 < m → st.csMark.getD j 0 = m → st'.csMark.getD j 0 = m := by
  cases h with
  | commit c hm hp =>
    obtain ⟨sok, hother⟩ := print_commit_sok hdb hwa hp
    refine ⟨sok, fun j m hpos hj => ?_⟩
    by_cases hjc : j = c
    · subst hjc
      rw [hj] at hm
      omega
    · rw [hother j hjc]
      exact hj
  | tag t ht hp =>
    obtain ⟨sok, hcs⟩ := print_tag_sok hwa.1 (lt_of_lt_of_le ht hwa.2.1) hp
    refine ⟨sok, fun j m _ hj => ?_⟩
    rw [hcs]
    exact hj
  | fixups base t cutoff ht hp =>
    obtain ⟨sok, hcs⟩ := print_fixups_sok hwa.1 (lt_of_lt_of_le ht hwa.2.1) hp
    refine ⟨sok, fun j m _ hj => ?_⟩
    rw [hcs]
    exact hj

/-- One emitter operation preserves full well-formedness of the state. -/
theorem WfAll_step {db : DB} {server : Server} {st st' : St}
    (hdb : WfDB db) (hwa : WfAll db st) (h : Step db server st st') : WfAll db st' := by
  obtain ⟨sok, _⟩ := Step_sok hdb hwa h
  refine ⟨?_, ?_, ?_⟩
  · rw [sok.mln]
    exact hwa.1
  · rw [sok.tln]
    exact hwa.2.1
  · rw [sok.cln]
    exact hwa.2.2

/-- A sequence of emitter operations preserves full well-formedness. -/
theorem WfAll_steps {db : DB} {server : Server} {st st' : St}
    (hdb : WfDB db) (hwa : WfAll db st) (hs : Steps db server st st') :
    WfAll db st' := by
  induction hs with
  | refl => exact hwa
  | tail hs1 hstep ih => exact WfAll_step hdb ih hstep

/-- C7 (amended): over any sequence of emitter operations on a well-formed
database and state, the mark invariant is preserved — the marks defined by
the emitted blob and commit records are drawn from the single counter and
form a strictly increasing sequence of positive integers, hence contain no
duplicates — a version's mark once assigned never changes, a commit
changeset's positive mark never changes (the scheduler only emits changesets
whose mark is still unset), the output stream only grows and the counter is
monotone.  A tag's synthetic changeset, by contrast, is re-marked at every
fix-up flush (see the accompanying counterexample). -/
theorem mark_discipline {db : DB} {server : Server} {st st' : St}
    (hdb : WfDB db) (hwa : WfAll db st) (hs : Steps db server st st') :
    (MarksInv st → MarksInv st') ∧
    (∀ v m, markOf st v = some m → markOf st' v = some m) ∧
    (∀ j m, 0 < m → st.csMark.getD j 0 = m → st'.csMark.getD j 0 = m) ∧
    (∃ d, st'.out = st.out ++ d) ∧
    st.counter ≤ st'.counter := by
  induction hs with
  | refl => exact ⟨id, fun _ _ h => h, fun _ _ _ h => h, ⟨[], by simp⟩, le_refl _⟩
  | tail hs1 hstep ih =>
    obtain ⟨ih1, ih2, ih3, ⟨d1, ihd⟩, ih5⟩ := ih
    have hw1 := WfAll_steps hdb hwa hs1
    obtain ⟨sok, hcsp⟩ := Step_sok hdb hw1 hstep
    obtain ⟨d2, hd2⟩ := sok.app
    exact ⟨fun hi => sok.inv (ih1 hi),
      fun v m hm => sok.mono v m (ih2 v m hm),
      fun j m hp hm => hcsp j m hp (ih3 j m hp hm),
      ⟨d1 ++ d2, by rw [hd2, ihd, List.append_assoc]⟩,
      le_trans ih5 sok.ctr⟩

/-- C7 witness: the mark discipline instantiated on the single-step run that
emits the one commit changeset of `dbCommit`. -/
theorem mark_discipline_witness :
    (MarksInv stCommit → MarksInv stCommitRes) ∧
    (∀ v m, markOf stCommit v = some m → markOf stCommitRes v = some m) ∧
    (∀ j m, 0 < m → stCommit.csMark.getD j 0 = m → stCommitRes.csMark.getD j 0 = m) ∧
    (∃ d, stCommitRes.out = stCommit.out ++ d) ∧
    stCommit.counter ≤ stCommitRes.counter :=
  @mark_discipline dbCommit srvSingles stCommit stCommitRes
    ⟨by decide, by decide⟩ ⟨by decide, by decide, by decide⟩
    (Steps.tail (Steps.refl stCommit) (Step.commit 0 (by decide) (by decide)))

/-- C7 counterexample: the trunk's synthetic changeset is given a fresh mark
at every fix-up flush — flushing the fix-ups due before time 5 assigns it
mark 2, and flushing the remainder later reassigns it mark 4 — so a
changeset mark drawn from the counter does change during the run, contrary
to the claim's "once assigned, a mark never changes". -/
theorem tag_mark_reassigned :
    print_fixups dbFix2 srvSingles stFix2 (some [none, none]) 0 (some 5) = some stFix2a ∧
    print_fixups dbFix2 srvSingles stFix2a (some [some 0, none]) 0 none = some stFix2b ∧
    stFix2a.tagCsMark.getD 0 0 = 2 ∧ stFix2b.tagCsMark.getD 0 0 = 4 :=
  ⟨by decide, by decide, by decide, by decide⟩

/-- C2 witness: the strategy equality instantiated on the mixed-branch
two-version set. -/
theorem grab_versions_strategy_witness :
    grab_versions dbMixed srvSingles stTwoV [0, 1] =
      grabVersionsSpec dbMixed srvSingles stTwoV [0, 1] :=
  grab_versions_strategy dbMixed srvSingles stTwoV [0, 1]

/-- C2 counterexample: on a set whose versions do not all share a branch
(the second has none) but whose first version has one, the code issues the
date-batched request while the claim's dispatcher (which requires a shared
branch) falls back to individual fetches, so the claim is false as stated. -/
theorem grab_versions_claim_branch_false :
    (getV dbMixed 1).branch = none ∧
    grabVersionsClaim dbMixed srvSingles stTwoV [0, 1] ≠
      grab_versions dbMixed srvSingles stTwoV [0, 1] ∧
    ((grab_versions dbMixed srvSingles stTwoV [0, 1]).map St.reqs).getD [] =
      [Request.byOption (some "b") (some 0) (sortedPaths dbMixed [0, 1]),
       Request.single 0, Request.single 1] ∧
    ((grabVersionsClaim dbMixed srvSingles stTwoV [0, 1]).map St.reqs).getD [] =
      [Request.single 0, Request.single 1] := by
  refine ⟨by decide, by decide, by decide, by decide⟩

end Crap
